/-
Verification of the dataclass-array core (`jax3d.visu3d.array_dataclass` and
`jax3d.visu3d.np_utils`) against its specification.

The shallow embedding below mirrors the Python source:
  * `Arr` models an n-dimensional array by its nesting structure (an element is
    an integer scalar; the element dtype plays no role in any verified claim).
    The shape of an empty leading axis is `[0]`: trailing dimensions of empty
    arrays are not observable in this model, and no claim depends on them.
  * `Val` models a Python field value: `None`, the bare `object()` sentinel
    used by `jax.vmap`, a backend-tagged array, or a nested dataclass array.
  * `Dc` models a concrete `DataclassArray` instance: its concrete type name,
    its declared array fields (name, declared `inner_shape`, declared dtype
    kind, current value) in declaration order, and its non-array dataclass
    fields (modelled as integer-valued, their content is irrelevant).
  * Fallible Python code is modelled with `Except Err`.  Unreachable branches
    (states a constructed Python object can never be in) are `Err.internal`.
-/
import Mathlib

/-- Numeric backend identity (`np`, `jnp`, `tnp` modules). -/
inductive Backend where
  | np
  | jnp
  | tnp
deriving DecidableEq, Repr

/-- Declared dtype kind of an array field: a primitive dtype (after the
`int`/`float` normalization of `_ArrayFieldMetadata.__post_init__`, which no
claim depends on), or a nested `DataclassArray` type, identified by its
concrete type name (`_ArrayFieldMetadata.is_dataclass`). -/
inductive FDtype where
  | prim
  | dcls (tyName : String)
deriving DecidableEq, Repr

/-- Array model: scalar or a list of sub-arrays along the leading axis. -/
inductive Arr where
  | scal (x : Int)
  | cell (xs : List Arr)

/-- `ndarray.shape`: the leading dimension is the number of sub-arrays, the
rest is the shape of the first sub-array (`[0]` for an empty leading axis). -/
def Arr.shape : Arr → List Nat
  | .scal _ => []
  | .cell [] => [0]
  | .cell (x :: xs) => (x :: xs).length :: x.shape

mutual
/-- A Python value stored in an array field. -/
inductive Val where
  | vnone : Val
  | vobj : Val
  | varr : Backend → Arr → Val
  | vdc : Dc → Val

/-- A `DataclassArray` instance: concrete type name, declared array fields in
declaration order, and the non-array dataclass fields (name/value pairs). -/
inductive Dc where
  | mk : String → List FieldB → List (String × Int) → Dc

/-- A declared array field bound to its current value (`_ArrayField` without
the derived state): name, declared `inner_shape`, declared dtype kind, value. -/
inductive FieldB where
  | mk : String → List Nat → FDtype → Val → FieldB
end

/-- Concrete type name of a `Dc` (Python `type(x).__name__`). -/
def Dc.ty : Dc → String
  | .mk t _ _ => t

/-- Declared array fields of a `Dc`, in declaration order. -/
def Dc.fields : Dc → List FieldB
  | .mk _ fs _ => fs

/-- Non-array dataclass fields of a `Dc`. -/
def Dc.nonArray : Dc → List (String × Int)
  | .mk _ _ na => na

/-- Field name. -/
def FieldB.name : FieldB → String
  | .mk n _ _ _ => n

/-- Declared `inner_shape` of the field. -/
def FieldB.innerShape : FieldB → List Nat
  | .mk _ s _ _ => s

/-- Declared dtype kind of the field. -/
def FieldB.fdtype : FieldB → FDtype
  | .mk _ _ d _ => d

/-- Current value of the field (`_ArrayField.value`). -/
def FieldB.value : FieldB → Val
  | .mk _ _ _ v => v

mutual
/-- `_ArrayField.is_value_missing`: `None`, the bare `object()` sentinel, and a
nested dataclass array with no active fields all count as missing. -/
def isValueMissing : Val → Bool
  | .vnone => true
  | .vobj => true
  | .varr _ _ => false
  | .vdc d => !(hasActive d)
termination_by v => sizeOf v

/-- Whether a `Dc` has at least one active (non-missing) field
(`bool(self._array_fields)` on the nested instance). -/
def hasActive : Dc → Bool
  | .mk _ fs _ => anyActive fs
termination_by d => sizeOf d

/-- Whether some field of the list is active. -/
def anyActive : List FieldB → Bool
  | [] => false
  | .mk _ _ _ v :: fs => !(isValueMissing v) || anyActive fs
termination_by fs => sizeOf fs
end

/-- `DataclassArray._array_fields`: the active fields, in declaration order. -/
def activeFields (d : Dc) : List FieldB :=
  d.fields.filter (fun f => !(isValueMissing f.value))

/-- Errors raised by the embedded code.  The Python classes are `ValueError`
(`noArrayFields`, `conflictingXnp`, `conflictingShapes`, `shapeMismatch`,
`truthAmbiguous`), `TypeError` (`typeMismatch`, `iterUnbatched`,
`stackConflictingTypes`), and `IndexError` (`multipleEllipsis`,
`tooManyIndices`, `indexOutOfRange`).  `internal` marks branches that a
constructed Python object can never reach (left unmodelled). -/
inductive Err where
  | noArrayFields
  | conflictingXnp (groups : List (Backend × List String))
  | conflictingShapes (groups : List (List Nat × List String))
  | shapeMismatch (name : String) (innerShape : List Nat) (valueShape : List Nat)
  | typeMismatch (name : String)
  | iterUnbatched
  | truthAmbiguous
  | multipleEllipsis
  | tooManyIndices (shape : List Nat) (rank : Nat)
  | indexOutOfRange
  | stackConflictingTypes (tys : List String)
  | internal
deriving DecidableEq, Repr

/-- One step of `groupby`: append `b` to the group of key `k`, keeping the
insertion order of keys. -/
def insertGroup {κ β : Type} [DecidableEq κ] :
    List (κ × List β) → κ → β → List (κ × List β)
  | [], k, b => [(k, [b])]
  | (k', bs) :: rest, k, b =>
    if k' = k then (k', bs ++ [b]) :: rest else (k', bs) :: insertGroup rest k b

/-- Modelled from the spec: `py_utils.groupby` is not under `src/`.  Per the
construction-error format in the spec (conflicting batch shapes reported as
`{(3,): ['position'], (4,): ['scale']}`), it groups `val a` by `key a` into an
insertion-ordered mapping from key to list of values. -/
def groupby {α κ β : Type} [DecidableEq κ]
    (l : List α) (key : α → κ) (val : α → β) : List (κ × List β) :=
  l.foldl (fun acc a => insertGroup acc (key a) (val a)) []

/-- The derived state of one active bound field: its name, its backend
(`_ArrayField.xnp`) and its host (batch) shape (`_ArrayField.host_shape`). -/
structure FieldInfo where
  name : String
  xnp : Backend
  hostShape : List Nat
deriving DecidableEq, Repr

/-- `_ArrayField.host_shape`: the value shape with the trailing `inner_shape`
dimensions removed (the code special-cases an empty `inner_shape`). -/
def hostShapeOf (inner vshape : List Nat) : List Nat :=
  if inner = [] then vshape else vshape.take (vshape.length - inner.length)

mutual
/-- `_ArrayField.__post_init__`: skip missing values entirely; otherwise
dispatch on the declared dtype kind (`_init_dataclass` / `_init_array`), then
check `host_shape + inner_shape == value.shape`.  Returns the derived
`FieldInfo` for an active field and `none` for a missing one. -/
def fieldInit : FieldB → Except Err (Option FieldInfo)
  | .mk nm inner dt v =>
    if isValueMissing v then .ok none
    else
      match dt, v with
      | .dcls tyName, .vdc sub =>
        if sub.ty = tyName then
          match dcPostInit sub with
          | .error e => .error e
          | .ok (none, _) => .error .internal
          | .ok (some vshape, xnp) =>
            if hostShapeOf inner vshape ++ inner = vshape then
              .ok (some ⟨nm, xnp, hostShapeOf inner vshape⟩)
            else .error (.shapeMismatch nm inner vshape)
        else .error (.typeMismatch nm)
      | .dcls _, _ => .error (.typeMismatch nm)
      | .prim, .vdc _ => .error (.typeMismatch nm)
      | .prim, .varr b a =>
        if hostShapeOf inner a.shape ++ inner = a.shape then
          .ok (some ⟨nm, b, hostShapeOf inner a.shape⟩)
        else .error (.shapeMismatch nm inner a.shape)
      | _, _ => .error .internal
termination_by f => sizeOf f

/-- Bind every declared field in declaration order, stopping at the first
field whose validation fails (the `_all_array_fields` dict comprehension). -/
def fieldsInit : List FieldB → Except Err (List (Option FieldInfo))
  | [] => .ok []
  | f :: fs =>
    match fieldInit f with
    | .error e => .error e
    | .ok i =>
      match fieldsInit fs with
      | .error e => .error e
      | .ok rest => .ok (i :: rest)
termination_by fs => sizeOf fs

/-- `DataclassArray.__post_init__`: build all bound fields, require at least
one declared array field, then check backend consistency and batch-shape
consistency over the active fields; cache `(shape, xnp)`.  A record with no
active field gets `(None, np)` (the `jax.tree_utils` escape hatch in the
code). -/
def dcPostInit : Dc → Except Err (Option (List Nat) × Backend)
  | .mk _ fs _ =>
    match fieldsInit fs with
    | .error e => .error e
    | .ok infos =>
      if fs.isEmpty then .error .noArrayFields
      else
        let active := infos.reduceOption
        let xnps := groupby active (fun i => i.xnp) (fun i => i.name)
        if 1 < xnps.length then .error (.conflictingXnp xnps)
        else
          let shapes := groupby active (fun i => i.hostShape) (fun i => i.name)
          if 1 < shapes.length then .error (.conflictingShapes shapes)
          else
            match xnps, shapes with
            | [], [] => .ok (none, .np)
            | (x, _) :: _, (s, _) :: _ => .ok (some s, x)
            | _, _ => .error .internal
termination_by d => sizeOf d
end

/-- Modelled from the spec: `np_utils.size_of` is not under `src/` (the
provided `np_utils.py` only has `normalize` and `append_row`).  The spec
defines `size` as the product of the batch-shape dimensions, `1` for an
unbatched instance and `0` when a dimension is `0`. -/
def size_of (shape : List Nat) : Nat := shape.prod

/-- `DataclassArray.shape`: the cached batch shape. -/
def dcShape (d : Dc) : Except Err (Option (List Nat)) := (dcPostInit d).map Prod.fst

/-- `DataclassArray.size`: `np_utils.size_of(self._shape)`.  The behaviour of
`size_of` on the unset (`None`) shape is outside the modelled surface. -/
def dcSize (d : Dc) : Except Err Nat :=
  match dcPostInit d with
  | .error e => .error e
  | .ok (none, _) => .error .internal
  | .ok (some s, _) => .ok (size_of s)

/-- `DataclassArray.__bool__`: raises only when the shape is truthy (set and
non-empty) and `len(self) == 0`; otherwise returns `True`. -/
def dcBool (d : Dc) : Except Err Bool :=
  match dcPostInit d with
  | .error e => .error e
  | .ok (some (0 :: _), _) => .error .truthAmbiguous
  | .ok _ => .ok true

/-- One item of a (already tuple-normalized) index expression: `...`,
`np.newaxis` (`None`), a slice, or an integer index. -/
inductive IdxItem where
  | ellipsis
  | newaxis
  | sliceI (start stop step : Option Int)
  | intI (i : Int)
deriving DecidableEq, Repr

/-- The full slice `slice(None)` (`:`), used to replace the ellipsis. -/
def fullSlice : IdxItem := .sliceI none none none

/-- `_count_ellipsis`: number of `...` among the items. -/
def countEllipsis (idx : List IdxItem) : Nat :=
  (idx.filter (fun k => decide (k = IdxItem.ellipsis))).length

/-- `_count_not_none`: number of items that are neither `np.newaxis` (which is
`None`) nor `...` — the "consuming" items. -/
def countNotNone (idx : List IdxItem) : Nat :=
  (idx.filter (fun k =>
    decide (k ≠ IdxItem.newaxis) && decide (k ≠ IdxItem.ellipsis))).length

/-- `_to_absolute_indices`: reject more than one `...`; reject more consuming
items than the batch rank; return unchanged without `...`; otherwise replace
the first `...` by `rank - consuming_count` full slices. -/
def toAbsoluteIndices (idx : List IdxItem) (shape : List Nat) :
    Except Err (List IdxItem) :=
  if 1 < countEllipsis idx then .error .multipleEllipsis
  else if shape.length < countNotNone idx then
    .error (.tooManyIndices shape (countNotNone idx))
  else if countEllipsis idx = 0 then .ok idx
  else
    let pos := idx.findIdx (fun k => decide (k = IdxItem.ellipsis))
    .ok (idx.take pos
      ++ List.replicate (shape.length - countNotNone idx) fullSlice
      ++ idx.drop (pos + 1))

instance : Inhabited Val := ⟨.vnone⟩

/-- Association lookup by field name (Python attribute access by name; field
names of a dataclass are unique). -/
def alookup {β : Type} (k : String) : List (String × β) → Option β
  | [] => none
  | (k', b) :: rest => if k' = k then some b else alookup k rest

/-- `edc.dataclass_utils.replace`: rebuild the instance with the listed field
values replaced and every other field kept. -/
def dcReplace (d : Dc) (assigns : List (String × Val)) : Dc :=
  .mk d.ty
    (d.fields.map (fun f =>
      .mk f.name f.innerShape f.fdtype ((alookup f.name assigns).getD f.value)))
    d.nonArray

/-- Python `zip(*lists)`: truncating transpose, `min` of the lengths rows. -/
def zipStar (ls : List (List Val)) : List (List Val) :=
  match ls with
  | [] => []
  | l0 :: rest =>
    (List.range (rest.foldl (fun m l => min m l.length) l0.length)).map
      (fun i => (l0 :: rest).map (fun l => l.getD i default))

/-- Validate a list of rebuilt instances: each yielded element of `__iter__`
is built through `replace`, i.e. through the constructor, so its own
post-init validation runs. -/
def elemsValidate : List Dc → Except Err (List Dc)
  | [] => .ok []
  | e :: es =>
    match dcPostInit e with
    | .error err => .error err
    | .ok _ =>
      match elemsValidate es with
      | .error err => .error err
      | .ok rest => .ok (e :: rest)

mutual
/-- `DataclassArray.__iter__`: raise on an unset or empty batch shape, then
yield `self.replace(**dict(zip(field_names, vals)))` for each tuple `vals` of
`zip(*field_values)` over the active fields.  Iteration is modelled eagerly:
the generator is exhausted into a list. -/
def dcIter : Dc → Except Err (List Dc)
  | .mk ty fs na =>
    match dcPostInit (.mk ty fs na) with
    | .error e => .error e
    | .ok (none, _) => .error .iterUnbatched
    | .ok (some [], _) => .error .iterUnbatched
    | .ok (some (_ :: _), _) =>
      match iterFields fs with
      | .error e => .error e
      | .ok pairs =>
        let names := pairs.map Prod.fst
        let tuples := zipStar (pairs.map Prod.snd)
        elemsValidate
          (tuples.map (fun vals => dcReplace (.mk ty fs na) (names.zip vals)))
termination_by d => sizeOf d

/-- Collect `(f.name, list(iter(f.value)))` for the active fields in order. -/
def iterFields : List FieldB → Except Err (List (String × List Val))
  | [] => .ok []
  | .mk nm _ _ v :: fs =>
    if isValueMissing v then iterFields fs
    else
      match valIter v with
      | .error e => .error e
      | .ok vs =>
        match iterFields fs with
        | .error e => .error e
        | .ok rest => .ok ((nm, vs) :: rest)
termination_by fs => sizeOf fs

/-- Python iteration over one field value: sub-arrays along the leading axis
for an array (a 0-d array refuses to iterate), the nested instance's own
`__iter__` for a nested dataclass array. -/
def valIter : Val → Except Err (List Val)
  | .vnone => .error .internal
  | .vobj => .error .internal
  | .varr _ (.scal _) => .error .iterUnbatched
  | .varr b (.cell xs) => .ok (xs.map (.varr b))
  | .vdc sub =>
    match dcIter sub with
    | .error e => .error e
    | .ok ds => .ok (ds.map .vdc)
termination_by v => sizeOf v
end

/-- Keys of the dict built by `groupby(arrays, key=type, ...)` in `stack`:
Python compares the membership probe `False` against keys that are type
objects, so the probe and the keys live in one type here. -/
inductive PyKey where
  | pybool (b : Bool)
  | pytype (name : String)
deriving DecidableEq, Repr

/-- `getattr(arr, name)` for the extraction of nested sub-records in `stack`:
the attribute must exist and hold a dataclass array, anything else crashes in
the backend (unmodelled). -/
def extractDcs (nm : String) : List Dc → Except Err (List Dc)
  | [] => .ok []
  | d :: ds =>
    match alookup nm (d.fields.map (fun f => (f.name, f.value))) with
    | some (Val.vdc sub) =>
      match extractDcs nm ds with
      | .error e => .error e
      | .ok rest => .ok (sub :: rest)
    | _ => .error .internal

/-- `getattr(arr, name)` for the raw arrays handed to `xnp.stack`. -/
def extractArrs (nm : String) : List Dc → Except Err (List Arr)
  | [] => .ok []
  | d :: ds =>
    match alookup nm (d.fields.map (fun f => (f.name, f.value))) with
    | some (Val.varr _ a) =>
      match extractArrs nm ds with
      | .error e => .error e
      | .ok rest => .ok (a :: rest)
    | _ => .error .internal

mutual
/-- `stack` after `first_arr = arrays[0]` succeeded: the type guard
`if False in types:` is mirrored literally (its membership probe is the
Boolean `False`, the dict keys are type objects), then `first_arr._map_field`
stacks every active field of the first record and rebuilds through the
constructor (re-validated). -/
def dcStackAux : Dc → List Dc → Except Err Dc
  | .mk ty fs na, rest =>
    let arrays := Dc.mk ty fs na :: rest
    let types := groupby arrays (fun x => PyKey.pytype x.ty) (fun x => x.ty)
    if (types.map Prod.fst).contains (PyKey.pybool false) then
      .error (.stackConflictingTypes (types.map Prod.snd).flatten)
    else
      match dcPostInit (.mk ty fs na) with
      | .error e => .error e
      | .ok (_, xnp) =>
        match stackFields fs arrays xnp with
        | .error e => .error e
        | .ok pairs =>
          let res := dcReplace (.mk ty fs na) pairs
          match dcPostInit res with
          | .error e => .error e
          | .ok _ => .ok res
termination_by first _ => sizeOf first

/-- Walk the declared fields of the first record; skip the missing ones
(`_map_field` only visits `_array_fields`); recurse with `stack` on nested
fields, stack raw arrays with the backend `stack` on primitive fields.  The
first record's own contribution is its bound value; the remaining records are
read by attribute name. -/
def stackFields : List FieldB → List Dc → Backend → Except Err (List (String × Val))
  | [], _, _ => .ok []
  | .mk nm _ dt v :: fs, arrays, xnp =>
    if isValueMissing v then stackFields fs arrays xnp
    else
      match dt, v with
      | .dcls _, .vdc sub =>
        match arrays with
        | [] => .error .internal
        | _ :: others =>
          match extractDcs nm others with
          | .error e => .error e
          | .ok subsRest =>
            match dcStackAux sub subsRest with
            | .error e => .error e
            | .ok merged =>
              match stackFields fs arrays xnp with
              | .error e => .error e
              | .ok pairsRest => .ok ((nm, .vdc merged) :: pairsRest)
      | .prim, .varr _ a =>
        match arrays with
        | [] => .error .internal
        | _ :: others =>
          match extractArrs nm others with
          | .error e => .error e
          | .ok arrsRest =>
            match stackFields fs arrays xnp with
            | .error e => .error e
            | .ok pairsRest =>
              .ok ((nm, .varr xnp (.cell (a :: arrsRest))) :: pairsRest)
      | _, _ => .error .internal
termination_by fs _ _ => sizeOf fs
end

/-- Free function `stack` (with the default `axis=0`): `arrays[0]` raises
`IndexError` on an empty list, then the body of `stack`. -/
def dcStack (ds : List Dc) : Except Err Dc :=
  match ds with
  | [] => .error .indexOutOfRange
  | first :: rest => dcStackAux first rest

/-- `_TreeMetadata`: field-name ordering plus the non-array constructor
keyword values. -/
structure TreeMetadata where
  arrayFieldNames : List String
  nonArrayFieldKwargs : List (String × Int)

/-- `DataclassArray.tree_flatten`: all declared field values (missing ones
included) in declaration order, plus the metadata. -/
def treeFlatten (d : Dc) : List Val × TreeMetadata :=
  (d.fields.map FieldB.value, ⟨d.fields.map FieldB.name, d.nonArray⟩)

/-- The static description of a concrete record type: its name and its
declared array fields (name, inner shape, dtype kind) in declaration order. -/
structure DcClass where
  tyName : String
  metas : List (String × List Nat × FDtype)

/-- The class of an instance. -/
def classOf (d : Dc) : DcClass :=
  ⟨d.ty, d.fields.map (fun f => (f.name, f.innerShape, f.fdtype))⟩

/-- `DataclassArray.tree_unflatten`: zip the value list back onto the field
names and call the constructor (which validates through post-init).  A field
name never produced by `tree_flatten` would be an unset constructor argument;
that branch is unreachable in the protocol and defaults to `None` here. -/
def treeUnflatten (c : DcClass) (md : TreeMetadata) (vals : List Val) :
    Except Err Dc :=
  let kwargs := md.arrayFieldNames.zip vals
  let d := Dc.mk c.tyName
    (c.metas.map (fun m => FieldB.mk m.1 m.2.1 m.2.2 ((alookup m.1 kwargs).getD .vnone)))
    md.nonArrayFieldKwargs
  match dcPostInit d with
  | .error e => .error e
  | .ok _ => .ok d

/-- The same instance with every declared array field set to `None`. -/
def allNoneDc (d : Dc) : Dc :=
  .mk d.ty (d.fields.map (fun f => .mk f.name f.innerShape f.fdtype .vnone))
    d.nonArray

/-- Replace the bare `object()` sentinel by `None`, leave other values. -/
def objToNone : Val → Val
  | .vobj => .vnone
  | v => v

/-- One field with an `object()` sentinel value replaced by `None`. -/
def objField (f : FieldB) : FieldB :=
  .mk f.name f.innerShape f.fdtype (objToNone f.value)

/-- The same instance with every `object()` sentinel field value replaced by
`None`. -/
def mapObjFields (d : Dc) : Dc :=
  .mk d.ty (d.fields.map objField) d.nonArray

mutual
/-- Rectangularity of an array: every cell's children share one shape.  Every
array that a numeric backend can actually hold is rectangular; the `Arr` model
does not enforce it structurally. -/
def Arr.rect : Arr → Bool
  | .scal _ => true
  | .cell xs => rectList xs
termination_by a => sizeOf a

/-- All children are rectangular and share their shape. -/
def rectList : List Arr → Bool
  | [] => true
  | x :: xs => x.rect && xs.all (fun y => decide (y.shape = x.shape)) && rectList xs
termination_by xs => sizeOf xs
end

mutual
/-- Well-formedness of a value as Python can produce it: arrays are
rectangular and nested instances are well-formed. -/
def wfVal : Val → Bool
  | .vnone => true
  | .vobj => true
  | .varr _ a => a.rect
  | .vdc d => wfDc d
termination_by v => sizeOf v

/-- Well-formedness of an instance as Python can produce it: dataclass field
names are unique and all values are well-formed. -/
def wfDc : Dc → Bool
  | .mk _ fs _ => decide ((fs.map FieldB.name).Nodup) && wfFields fs
termination_by d => sizeOf d

/-- All fields hold well-formed values. -/
def wfFields : List FieldB → Bool
  | [] => true
  | .mk _ _ _ v :: fs => wfVal v && wfFields fs
termination_by fs => sizeOf fs
end

/-- A batched instance in the style of the `Square` example of the source:
`pos` with inner shape `(2,)` and value of shape `(3, 2)`, `scale` with inner
shape `()` and value of shape `(3,)`; batch shape `(3,)`. -/
def exPoint : Dc :=
  .mk "Point"
    [ .mk "pos" [2] .prim (.varr .np (.cell
        [.cell [.scal 0, .scal 1], .cell [.scal 2, .scal 3],
         .cell [.scal 4, .scal 5]])),
      .mk "scale" [] .prim (.varr .np (.cell [.scal 6, .scal 7, .scal 8]))]
    []

/-- An instance with batch shape `(0,)`: one scalar-inner field holding an
empty array. -/
def exEmpty : Dc :=
  .mk "Point" [.mk "a" [] .prim (.varr .np (.cell []))] []

/-- A record type with two declared fields, both set to `None`. -/
def exAllNone : Dc :=
  .mk "Point" [.mk "pos" [2] .prim .vnone, .mk "scale" [] .prim .vnone] []

/-- Conflicting-backend instance: fields `a` (numpy, host shape `(2,)`) and
`b` (jax, host shape `(3,)`). -/
def exXnpConflict : Dc :=
  .mk "P"
    [ .mk "a" [] .prim (.varr .np (.cell [.scal 0, .scal 1])),
      .mk "b" [] .prim (.varr .jnp (.cell [.scal 0, .scal 1, .scal 2]))]
    []

/-- Conflicting-shape instance with one shared backend: fields `a` (host
shape `(2,)`) and `b` (host shape `(3,)`), both numpy. -/
def exShapeConflict : Dc :=
  .mk "P"
    [ .mk "a" [] .prim (.varr .np (.cell [.scal 0, .scal 1])),
      .mk "b" [] .prim (.varr .np (.cell [.scal 0, .scal 1, .scal 2]))]
    []

/-- Whether a construction outcome is the conflicting-batch-shapes error (the
only construction error that reports the offending shapes). -/
def isConflictingShapesErr : Except Err (Option (List Nat) × Backend) → Bool
  | .error (.conflictingShapes _) => true
  | _ => false

/-- A valid unbatched one-field record of concrete type `PointA`. -/
def exA : Dc := .mk "PointA" [.mk "a" [] .prim (.varr .np (.scal 1))] []

/-- A valid unbatched one-field record of concrete type `PointB`. -/
def exB : Dc := .mk "PointB" [.mk "a" [] .prim (.varr .np (.scal 2))] []

/-- The element list produced by Python iteration of one value (`[]` when the
value does not iterate); lets the iteration output be written functionally. -/
def iterValsOf (v : Val) : List Val :=
  match valIter v with
  | .ok vs => vs
  | .error _ => []

/-- One field of the `k`-th element yielded by `__iter__`: active fields get
their `k`-th slice, missing fields are untouched. -/
def replAt (k : Nat) (f : FieldB) : FieldB :=
  if isValueMissing f.value then f
  else .mk f.name f.innerShape f.fdtype ((iterValsOf f.value).getD k default)

/-- The assignment list `dict(zip(field_names, vals))` of the `k`-th yielded
element. -/
def sliceAssigns (fs : List FieldB) (k : Nat) : List (String × Val) :=
  (fs.filter (fun f => !(isValueMissing f.value))).map
    (fun f => (f.name, (iterValsOf f.value).getD k default))

/-- How one active field of the first record is reassembled by `stack` from
the slices `vs` of its value: a primitive field stacks the sub-arrays back
into the original array, a nested field recursively stacks the sub-records
back into the original nested record. -/
def StackBack (x : Backend) (f : FieldB) (vs : List Val) : Prop :=
  (∃ xs, f.fdtype = .prim ∧ f.value = .varr x (.cell xs) ∧
    vs = xs.map (.varr x)) ∨
  (∃ tn sub se0 serest, f.fdtype = .dcls tn ∧ f.value = .vdc sub ∧
    vs = (se0 :: serest).map .vdc ∧ dcStackAux se0 serest = .ok sub)

/-- The per-field facts the iterate/stack round trip needs: a field is either
missing, or it iterates into `n + 1` slices, each slice validating with host
shape `s` and backend `x`, and the slices stack back into the original
value. -/
def FieldSliceOK (x : Backend) (n : Nat) (s : List Nat) (f : FieldB) : Prop :=
  isValueMissing f.value = true ∨
  (∃ vs, valIter f.value = .ok vs ∧ iterValsOf f.value = vs ∧
    vs.length = n + 1 ∧
    (∀ k, k < n + 1 →
      fieldInit (.mk f.name f.innerShape f.fdtype (vs.getD k default)) =
        .ok (some ⟨f.name, x, s⟩)) ∧
    StackBack x f vs)

instance : Inhabited Dc := ⟨.mk "" [] []⟩

instance : Inhabited Arr := ⟨.scal 0⟩

/-- Unfolding lemma: `anyActive` on a cons cell, phrased with the projection. -/
theorem anyActive_cons (f : FieldB) (fs : List FieldB) :
    anyActive (f :: fs) = (!(isValueMissing f.value) || anyActive fs) := by
  cases f with
  | mk n s d v => simp [anyActive, FieldB.value]

/-- C4: for every record, `record.size` is the product of its batch-shape
dimensions; an unbatched record (batch shape `()`) has size `1` and a batch
shape containing a zero dimension gives size `0`. -/
theorem size_matches_shape_product (d : Dc) (s : List Nat) (x : Backend)
    (h : dcPostInit d = .ok (some s, x)) :
    dcSize d = .ok s.prod ∧ (s = [] → dcSize d = .ok 1) ∧
      (0 ∈ s → dcSize d = .ok 0) := by
  refine ⟨by simp [dcSize, h, size_of], fun hs => by simp [dcSize, h, size_of, hs],
    fun hz => by simp [dcSize, h, size_of, List.prod_eq_zero hz]⟩

/-- Witness for C4 at `exPoint`, whose batch shape is `(3,)`. -/
theorem size_matches_shape_product_witness : dcSize exPoint = .ok 3 :=
  (size_matches_shape_product exPoint [3] .np (by
    simp [exPoint, dcPostInit, fieldsInit, fieldInit, isValueMissing,
      hostShapeOf, Arr.shape, List.reduceOption, groupby, insertGroup, Dc.ty])).1

/-- C9: evaluating the truth value of a record raises `ValueError` iff its
batch shape is set, non-empty, and its outermost dimension is `0`; every
other record is `True`. -/
theorem bool_raises_iff_zero_leading (d : Dc) (r : Option (List Nat) × Backend)
    (h : dcPostInit d = .ok r) :
    (dcBool d = .error .truthAmbiguous ↔ ∃ tl, r.1 = some (0 :: tl)) ∧
      ((∀ tl, r.1 ≠ some (0 :: tl)) → dcBool d = .ok true) := by
  obtain ⟨s?, b⟩ := r
  match s? with
  | none => simp [dcBool, h]
  | some [] => simp [dcBool, h]
  | some (n :: tl) =>
    match n with
    | 0 => simp [dcBool, h]
    | m + 1 => simp [dcBool, h]

/-- Witness for C9: the truth value of the `(0,)`-shaped instance raises, and
the `(3,)`-shaped instance is `True`. -/
theorem bool_raises_iff_zero_leading_witness :
    dcBool exEmpty = .error .truthAmbiguous :=
  (bool_raises_iff_zero_leading exEmpty (some [0], .np) (by
    simp [exEmpty, dcPostInit, fieldsInit, fieldInit, isValueMissing,
      hostShapeOf, Arr.shape, List.reduceOption, groupby, insertGroup])).1.mpr
    ⟨[], rfl⟩

theorem countEllipsis_append (a b : List IdxItem) :
    countEllipsis (a ++ b) = countEllipsis a + countEllipsis b := by
  simp [countEllipsis, List.filter_append]

theorem countEllipsis_eq_zero (l : List IdxItem) (h : IdxItem.ellipsis ∉ l) :
    countEllipsis l = 0 := by
  simp only [countEllipsis, List.length_eq_zero, List.filter_eq_nil_iff]
  intro a ha
  simp only [decide_eq_true_eq]
  exact fun he => h (he ▸ ha)

theorem findIdx_first_marker (pre post : List IdxItem)
    (h : IdxItem.ellipsis ∉ pre) :
    (pre ++ IdxItem.ellipsis :: post).findIdx
      (fun k => decide (k = IdxItem.ellipsis)) = pre.length := by
  induction pre with
  | nil => simp [List.findIdx_cons]
  | cons a as ih =>
    have ha : a ≠ IdxItem.ellipsis := fun he => h (he ▸ List.mem_cons_self a as)
    have has : IdxItem.ellipsis ∉ as := fun hm => h (List.mem_cons_of_mem a hm)
    simp [List.findIdx_cons, ha, ih has]

/-- C5: with exactly one ellipsis and no more consuming items than the batch
rank, normalization replaces the ellipsis by `rank - consuming_count` full
slices, keeping the items around it; with no ellipsis and a valid consuming
count the tuple is returned unchanged. -/
theorem index_normalization (idx : List IdxItem) (shape : List Nat) :
    (countEllipsis idx = 0 → countNotNone idx ≤ shape.length →
      toAbsoluteIndices idx shape = .ok idx) ∧
    (∀ pre post, idx = pre ++ IdxItem.ellipsis :: post →
      IdxItem.ellipsis ∉ pre → IdxItem.ellipsis ∉ post →
      countNotNone idx ≤ shape.length →
      toAbsoluteIndices idx shape = .ok
        (pre ++ List.replicate (shape.length - countNotNone idx) fullSlice
          ++ post)) := by
  constructor
  · intro h0 hle
    simp [toAbsoluteIndices, h0, Nat.not_lt.mpr hle]
  · intro pre post hdec hpre hpost hle
    have h1 : countEllipsis idx = 1 := by
      subst hdec
      rw [countEllipsis_append, countEllipsis_eq_zero pre hpre]
      have hstep : countEllipsis (IdxItem.ellipsis :: post) =
          countEllipsis post + 1 := by
        simp [countEllipsis]
      rw [hstep, countEllipsis_eq_zero post hpost]
    have hfind : idx.findIdx (fun k => decide (k = IdxItem.ellipsis)) =
        pre.length := hdec ▸ findIdx_first_marker pre post hpre
    have htake : idx.take pre.length = pre := by
      rw [hdec]; exact List.take_left pre (IdxItem.ellipsis :: post)
    have hdrop : idx.drop (pre.length + 1) = post := by
      rw [hdec, show pre ++ IdxItem.ellipsis :: post
          = (pre ++ [IdxItem.ellipsis]) ++ post by simp,
        show pre.length + 1 = (pre ++ [IdxItem.ellipsis]).length by simp]
      exact List.drop_left _ _
    simp [toAbsoluteIndices, h1, Nat.not_lt.mpr hle, hfind, htake, hdrop]

/-- Witness for C5: `p[0, ...]` on batch shape `(2, 3, 4)` becomes
`p[0, :, :]`, and an ellipsis-free tuple is unchanged. -/
theorem index_normalization_witness :
    toAbsoluteIndices [IdxItem.intI 0, IdxItem.ellipsis] [2, 3, 4] =
      .ok [IdxItem.intI 0, fullSlice, fullSlice] ∧
    toAbsoluteIndices [IdxItem.intI 0, IdxItem.newaxis] [2, 3, 4] =
      .ok [IdxItem.intI 0, IdxItem.newaxis] :=
  ⟨(index_normalization [IdxItem.intI 0, IdxItem.ellipsis] [2, 3, 4]).2
      [IdxItem.intI 0] [] rfl (by decide) (by decide) (by decide),
    (index_normalization [IdxItem.intI 0, IdxItem.newaxis] [2, 3, 4]).1
      (by decide) (by decide)⟩

/-- C6: two or more ellipsis markers raise `IndexError`; a consuming-item
count larger than the batch rank raises `IndexError`, and (whenever the
ellipsis check does not fire first) that error reports the batch shape and
the provided rank. -/
theorem index_error_conditions (idx : List IdxItem) (shape : List Nat) :
    (2 ≤ countEllipsis idx →
      toAbsoluteIndices idx shape = .error .multipleEllipsis) ∧
    (shape.length < countNotNone idx →
      ∃ e, toAbsoluteIndices idx shape = .error e) ∧
    (countEllipsis idx ≤ 1 → shape.length < countNotNone idx →
      toAbsoluteIndices idx shape =
        .error (.tooManyIndices shape (countNotNone idx))) := by
  refine ⟨fun h2 => by simp [toAbsoluteIndices, Nat.lt_of_lt_of_le Nat.one_lt_two h2], ?_, ?_⟩
  · intro hr
    by_cases he : 1 < countEllipsis idx
    · exact ⟨Err.multipleEllipsis, by simp [toAbsoluteIndices, he]⟩
    · exact ⟨Err.tooManyIndices shape (countNotNone idx),
        by simp [toAbsoluteIndices, he, hr]⟩
  · intro he hr
    simp [toAbsoluteIndices, Nat.not_lt.mpr he, hr]

/-- Witness for C6: a double ellipsis raises, and three consuming items on a
rank-1 batch raise with the shape and rank in the error. -/
theorem index_error_conditions_witness :
    toAbsoluteIndices [IdxItem.ellipsis, IdxItem.ellipsis] [5] =
      .error .multipleEllipsis ∧
    toAbsoluteIndices [IdxItem.intI 0, fullSlice, IdxItem.intI 1] [5] =
      .error (.tooManyIndices [5] 3) :=
  ⟨(index_error_conditions [IdxItem.ellipsis, IdxItem.ellipsis] [5]).1 (by decide),
    (index_error_conditions [IdxItem.intI 0, fullSlice, IdxItem.intI 1] [5]).2.2
      (by decide) (by decide)⟩

theorem insertGroup_keys {κ β : Type} [DecidableEq κ]
    (acc : List (κ × List β)) (k : κ) (b : β) :
    (insertGroup acc k b).map Prod.fst =
      if k ∈ acc.map Prod.fst then acc.map Prod.fst
      else acc.map Prod.fst ++ [k] := by
  induction acc with
  | nil => simp [insertGroup]
  | cons p rest ih =>
    obtain ⟨k', bs⟩ := p
    by_cases hk : k' = k
    · subst hk
      simp [insertGroup]
    · simp only [insertGroup, if_neg hk, List.map_cons, ih]
      by_cases hmem : k ∈ rest.map Prod.fst
      · simp [hmem, Ne.symm hk]
      · simp [hmem, Ne.symm hk]

theorem insertGroup_keys_mem {κ β : Type} [DecidableEq κ]
    (acc : List (κ × List β)) (k0 k : κ) (b : β) :
    k ∈ (insertGroup acc k0 b).map Prod.fst ↔
      k ∈ acc.map Prod.fst ∨ k = k0 := by
  rw [insertGroup_keys]
  by_cases hmem : k0 ∈ acc.map Prod.fst
  · rw [if_pos hmem]
    exact ⟨Or.inl, fun h => h.elim id (fun hk => hk ▸ hmem)⟩
  · rw [if_neg hmem]
    simp

theorem groupby_keys_mem {α κ β : Type} [DecidableEq κ]
    (l : List α) (key : α → κ) (val : α → β) (k : κ) :
    k ∈ (groupby l key val).map Prod.fst ↔ ∃ a ∈ l, key a = k := by
  suffices h : ∀ acc : List (κ × List β),
      k ∈ ((l.foldl (fun acc a => insertGroup acc (key a) (val a)) acc).map
        Prod.fst) ↔ k ∈ acc.map Prod.fst ∨ ∃ a ∈ l, key a = k by
    simpa [groupby] using h []
  induction l with
  | nil => intro acc; simp
  | cons a as ih =>
    intro acc
    rw [List.foldl_cons, ih, insertGroup_keys_mem, List.exists_mem_cons_iff]
    constructor
    · rintro ((h | h) | h)
      · exact Or.inl h
      · exact Or.inr (Or.inl h.symm)
      · exact Or.inr (Or.inr h)
    · rintro (h | h | h)
      · exact Or.inl (Or.inl h)
      · exact Or.inl (Or.inr h.symm)
      · exact Or.inr h

theorem groupby_keys_nodup {α κ β : Type} [DecidableEq κ]
    (l : List α) (key : α → κ) (val : α → β) :
    ((groupby l key val).map Prod.fst).Nodup := by
  suffices h : ∀ acc : List (κ × List β), (acc.map Prod.fst).Nodup →
      ((l.foldl (fun acc a => insertGroup acc (key a) (val a)) acc).map
        Prod.fst).Nodup by
    exact h [] List.nodup_nil
  induction l with
  | nil => intro acc hacc; simpa using hacc
  | cons a as ih =>
    intro acc hacc
    rw [List.foldl_cons]
    refine ih _ ?_
    rw [insertGroup_keys]
    by_cases hmem : key a ∈ acc.map Prod.fst
    · simpa [hmem] using hacc
    · simp only [if_neg hmem]
      refine List.Nodup.append hacc (List.nodup_singleton _) ?_
      intro x hx hxk
      rw [List.mem_singleton] at hxk
      exact hmem (hxk ▸ hx)

theorem two_mem_two_le_length {κ : Type} (l : List κ) (a b : κ)
    (ha : a ∈ l) (hb : b ∈ l) (hne : a ≠ b) : 2 ≤ l.length := by
  match l with
  | [] => simp at ha
  | [x] =>
    rw [List.mem_singleton] at ha hb
    exact absurd (ha.trans hb.symm) hne
  | x :: y :: t => simp [Nat.le_add_left]

theorem groupby_length_le_one_key_eq {α κ β : Type} [DecidableEq κ]
    (l : List α) (key : α → κ) (val : α → β)
    (h : (groupby l key val).length ≤ 1) :
    ∀ a ∈ l, ∀ b ∈ l, key a = key b := by
  intro a ha b hb
  by_contra hne
  have hka : key a ∈ (groupby l key val).map Prod.fst :=
    (groupby_keys_mem l key val _).mpr ⟨a, ha, rfl⟩
  have hkb : key b ∈ (groupby l key val).map Prod.fst :=
    (groupby_keys_mem l key val _).mpr ⟨b, hb, rfl⟩
  have h2 := two_mem_two_le_length _ _ _ hka hkb hne
  rw [List.length_map] at h2
  omega

theorem groupby_key_eq_length_le_one {α κ β : Type} [DecidableEq κ]
    (l : List α) (key : α → κ) (val : α → β)
    (h : ∀ a ∈ l, ∀ b ∈ l, key a = key b) :
    (groupby l key val).length ≤ 1 := by
  by_contra hlen
  have h2 : 2 ≤ ((groupby l key val).map Prod.fst).length := by
    rw [List.length_map]; omega
  obtain ⟨k1, k2, rest, heq⟩ : ∃ k1 k2 rest,
      (groupby l key val).map Prod.fst = k1 :: k2 :: rest := by
    match hm : (groupby l key val).map Prod.fst with
    | [] => rw [hm] at h2; simp at h2
    | [x] => rw [hm] at h2; simp at h2
    | k1 :: k2 :: rest => exact ⟨k1, k2, rest, rfl⟩
  have hnd := groupby_keys_nodup l key val
  rw [heq] at hnd
  have hne : k1 ≠ k2 := by
    simp only [List.nodup_cons, List.mem_cons] at hnd
    exact fun h12 => hnd.1 (Or.inl h12)
  obtain ⟨a, ha, hka⟩ := (groupby_keys_mem l key val k1).mp
    (heq ▸ List.mem_cons_self _ _)
  obtain ⟨b, hb, hkb⟩ := (groupby_keys_mem l key val k2).mp
    (heq ▸ List.mem_cons_of_mem _ (List.mem_cons_self _ _))
  exact hne (hka ▸ hkb ▸ h a ha b hb)

theorem FieldB.eta (f : FieldB) :
    FieldB.mk f.name f.innerShape f.fdtype f.value = f := by
  cases f with
  | mk n s d v => rfl

theorem fieldInit_missing (f : FieldB) (h : isValueMissing f.value = true) :
    fieldInit f = .ok none := by
  cases f with
  | mk n s d v =>
    rw [FieldB.value] at h
    rw [fieldInit.eq_def]
    simp [h]

theorem fieldsInit_cons (f : FieldB) (fs : List FieldB) :
    fieldsInit (f :: fs) =
      match fieldInit f with
      | .error e => .error e
      | .ok i =>
        match fieldsInit fs with
        | .error e => .error e
        | .ok rest => .ok (i :: rest) := by
  rw [fieldsInit]

theorem fieldsInit_nil : fieldsInit [] = .ok [] := by
  rw [fieldsInit]

theorem fieldsInit_length (fs : List FieldB) (infos : List (Option FieldInfo))
    (h : fieldsInit fs = .ok infos) : infos.length = fs.length := by
  induction fs generalizing infos with
  | nil =>
    rw [fieldsInit_nil] at h
    cases h
    rfl
  | cons f ft ih =>
    rw [fieldsInit_cons] at h
    match hf : fieldInit f with
    | .error e => rw [hf] at h; cases h
    | .ok i =>
      rw [hf] at h
      match ht : fieldsInit ft with
      | .error e => rw [ht] at h; cases h
      | .ok rest =>
        rw [ht] at h
        cases h
        simp [ih rest ht]

theorem fieldsInit_mem (fs : List FieldB) (infos : List (Option FieldInfo))
    (h : fieldsInit fs = .ok infos) (f : FieldB) (hf : f ∈ fs) :
    ∃ oi, fieldInit f = .ok oi ∧ oi ∈ infos := by
  induction fs generalizing infos with
  | nil => simp at hf
  | cons g gt ih =>
    rw [fieldsInit_cons] at h
    match hg : fieldInit g with
    | .error e => rw [hg] at h; cases h
    | .ok i =>
      rw [hg] at h
      match ht : fieldsInit gt with
      | .error e => rw [ht] at h; cases h
      | .ok rest =>
        rw [ht] at h
        cases h
        rcases List.mem_cons.mp hf with hf | hf
        · exact ⟨i, hf ▸ hg, List.mem_cons_self _ _⟩
        · obtain ⟨oi, h1, h2⟩ := ih rest ht hf
          exact ⟨oi, h1, List.mem_cons_of_mem _ h2⟩

theorem reduceOption_const_none {α β : Type} (l : List α) :
    (l.map (fun _ => (none : Option β))).reduceOption = [] := by
  induction l with
  | nil => rfl
  | cons a as ih => simp [List.reduceOption]

theorem reduceOption_replicate_none {β : Type} (n : Nat) :
    (List.replicate n (none : Option β)).reduceOption = [] := by
  induction n with
  | zero => rfl
  | succ m ih => simp [List.replicate_succ, List.reduceOption]

theorem fieldsInit_all_missing (fs : List FieldB)
    (h : ∀ f ∈ fs, isValueMissing f.value = true) :
    fieldsInit fs = .ok (fs.map (fun _ => none)) := by
  induction fs with
  | nil => exact fieldsInit_nil
  | cons f ft ih =>
    rw [fieldsInit_cons, fieldInit_missing f (h f (List.mem_cons_self _ _)),
      ih (fun g hg => h g (List.mem_cons_of_mem _ hg))]
    rfl

theorem isValueMissing_objToNone (v : Val) :
    isValueMissing (objToNone v) = isValueMissing v := by
  cases v with
  | vobj =>
    rw [show objToNone Val.vobj = Val.vnone from rfl, isValueMissing.eq_1,
      isValueMissing.eq_2]
  | vnone => rfl
  | varr b a => rfl
  | vdc d => rfl

theorem objField_value (f : FieldB) : (objField f).value = objToNone f.value := rfl

theorem objField_active_eq (f : FieldB) (h : isValueMissing f.value = false) :
    objField f = f := by
  obtain ⟨n, s, dt, v⟩ := f
  cases v with
  | vnone => rw [FieldB.value, isValueMissing.eq_1] at h; cases h
  | vobj => rw [FieldB.value, isValueMissing.eq_2] at h; cases h
  | varr b a => rfl
  | vdc sub => rfl

theorem fieldInit_objToNone (f : FieldB) :
    fieldInit (objField f) = fieldInit f := by
  obtain ⟨n, s, dt, v⟩ := f
  cases v with
  | vobj =>
    rw [show objField (FieldB.mk n s dt Val.vobj) = FieldB.mk n s dt Val.vnone
        from rfl,
      fieldInit_missing (FieldB.mk n s dt Val.vnone)
        (by rw [FieldB.value]; exact isValueMissing.eq_1),
      fieldInit_missing (FieldB.mk n s dt Val.vobj)
        (by rw [FieldB.value]; exact isValueMissing.eq_2)]
  | vnone => rfl
  | varr b a => rfl
  | vdc sub => rfl

/-- C10: a field value whose exact concrete type is the bare base `object`
type is treated as missing, exactly like `None`: the bound field skips all
validation, the field is excluded from the active fields, and replacing every
such sentinel by `None` changes neither the active fields nor the construction
outcome (batch shape and backend). -/
theorem obj_sentinel_treated_as_missing :
    isValueMissing .vobj = true ∧
    isValueMissing .vobj = isValueMissing .vnone ∧
    (∀ nm inner dt, fieldInit (.mk nm inner dt .vobj) = .ok none) ∧
    (∀ d : Dc, activeFields (mapObjFields d) = activeFields d ∧
      dcPostInit (mapObjFields d) = dcPostInit d) := by
  refine ⟨isValueMissing.eq_2, isValueMissing.eq_2.trans isValueMissing.eq_1.symm,
    fun nm inner dt => fieldInit_missing _
      (by rw [FieldB.value]; exact isValueMissing.eq_2), ?_⟩
  intro d
  obtain ⟨ty, fs, na⟩ := d
  have hfields : ∀ gs : List FieldB,
      fieldsInit (gs.map objField) = fieldsInit gs := by
    intro gs
    induction gs with
    | nil => rfl
    | cons f ft ih =>
      rw [List.map_cons, fieldsInit_cons, fieldsInit_cons,
        fieldInit_objToNone f, ih]
  have hfilter : ∀ gs : List FieldB,
      (gs.map objField).filter (fun f => !(isValueMissing f.value)) =
        gs.filter (fun f => !(isValueMissing f.value)) := by
    intro gs
    rw [List.filter_map]
    have hcond : ((fun f => !(isValueMissing f.value)) ∘ objField) =
        (fun f => !(isValueMissing f.value)) := by
      funext f
      simp only [Function.comp_apply, objField_value, isValueMissing_objToNone]
    rw [hcond]
    have hid : ∀ f ∈ gs.filter (fun f => !(isValueMissing f.value)),
        objField f = id f := by
      intro f hf
      have hp := List.of_mem_filter hf
      rw [Bool.not_eq_true' ] at hp
      exact objField_active_eq f hp
    rw [List.map_congr_left hid, List.map_id]
  constructor
  · simp only [activeFields, mapObjFields, Dc.fields, Dc.ty, Dc.nonArray]
    exact hfilter fs
  · simp only [mapObjFields, Dc.fields, Dc.ty, Dc.nonArray]
    rw [dcPostInit, dcPostInit, hfields fs]
    have hemp : (fs.map objField).isEmpty = fs.isEmpty := by
      cases fs <;> rfl
    simp only [hemp]

/-- C2 counterexample: constructing with every declared field missing does not
raise — `__post_init__` takes the "no values" branch (kept for
`jax.tree_utils`) and caches shape `None` with the default numpy backend, so
an all-null record is a legal top-level instance. -/
theorem all_missing_construction_succeeds :
    dcPostInit exAllNone = .ok (none, .np) ∧ isValueMissing Val.vnone = true := by
  refine ⟨?_, isValueMissing.eq_1⟩
  simp [exAllNone, dcPostInit, fieldsInit, fieldInit, isValueMissing,
    List.reduceOption, groupby]

theorem dcPostInit_all_missing (ty : String) (fs : List FieldB)
    (na : List (String × Int)) (hne : fs ≠ [])
    (hmiss : ∀ f ∈ fs, isValueMissing f.value = true) :
    dcPostInit (.mk ty fs na) = .ok (none, .np) := by
  rw [dcPostInit, fieldsInit_all_missing fs hmiss]
  have hemp : fs.isEmpty = false := by
    cases fs with
    | nil => exact absurd rfl hne
    | cons _ _ => rfl
  simp [hemp, reduceOption_const_none, reduceOption_replicate_none, groupby]

theorem dcPostInit_nil_fields (ty : String) (na : List (String × Int)) :
    dcPostInit (.mk ty [] na) = .error .noArrayFields := by
  rw [dcPostInit, fieldsInit_nil]
  rfl

/-- C2 (amended): construction with every declared field missing (null, bare
`object()` sentinel, or all-null nested record) succeeds and yields the unset
batch shape with the default numpy backend; the construction error is raised
only when the record type declares no array fields at all. -/
theorem all_missing_construction (ty : String) (na : List (String × Int)) :
    (∀ fs : List FieldB, fs ≠ [] → (∀ f ∈ fs, isValueMissing f.value = true) →
      dcPostInit (.mk ty fs na) = .ok (none, .np)) ∧
    dcPostInit (.mk ty [] na) = .error .noArrayFields :=
  ⟨fun fs hne hmiss => dcPostInit_all_missing ty fs na hne hmiss,
    dcPostInit_nil_fields ty na⟩

/-- Witness for C2 at a one-field all-`None` record, plus the declared-no-field
error case. -/
theorem all_missing_construction_witness :
    dcPostInit (Dc.mk "Ray" [FieldB.mk "p" [3] .prim .vnone] []) =
      .ok (none, .np) ∧
    dcPostInit (Dc.mk "Ray" [] []) = .error .noArrayFields :=
  ⟨(all_missing_construction "Ray" []).1 [FieldB.mk "p" [3] .prim .vnone]
      (by simp)
      (by
        intro f hf
        rw [List.mem_singleton] at hf
        subst hf
        rw [FieldB.value]
        exact isValueMissing.eq_1),
    (all_missing_construction "Ray" []).2⟩

theorem dcPostInit_ok_facts (ty : String) (fs : List FieldB)
    (na : List (String × Int)) (r : Option (List Nat) × Backend)
    (h : dcPostInit (.mk ty fs na) = .ok r) :
    ∃ infos, fieldsInit fs = .ok infos ∧
      (∀ i ∈ infos.reduceOption, ∀ j ∈ infos.reduceOption,
        i.hostShape = j.hostShape ∧ i.xnp = j.xnp) ∧
      (∀ s x, r = (some s, x) →
        ∀ i ∈ infos.reduceOption, i.hostShape = s ∧ i.xnp = x) := by
  rw [dcPostInit] at h
  match hfi : fieldsInit fs with
  | .error e => rw [hfi] at h; cases h
  | .ok infos =>
    rw [hfi] at h
    dsimp only at h
    refine ⟨infos, rfl, ?_⟩
    by_cases hemp : fs.isEmpty = true
    · rw [if_pos hemp] at h; cases h
    · rw [if_neg hemp] at h
      by_cases h1 : 1 < (groupby infos.reduceOption (fun i => i.xnp)
          (fun i => i.name)).length
      · rw [if_pos h1] at h; cases h
      · rw [if_neg h1] at h
        by_cases h2 : 1 < (groupby infos.reduceOption (fun i => i.hostShape)
            (fun i => i.name)).length
        · rw [if_pos h2] at h; cases h
        · rw [if_neg h2] at h
          have hkeyx := groupby_length_le_one_key_eq infos.reduceOption
            (fun i => i.xnp) (fun i => i.name) (Nat.not_lt.mp h1)
          have hkeys := groupby_length_le_one_key_eq infos.reduceOption
            (fun i => i.hostShape) (fun i => i.name) (Nat.not_lt.mp h2)
          refine ⟨fun i hi j hj => ⟨hkeys i hi j hj, hkeyx i hi j hj⟩, ?_⟩
          intro s x hr i hi
          subst hr
          match hx : groupby infos.reduceOption (fun i => i.xnp)
              (fun i => i.name),
            hs : groupby infos.reduceOption (fun i => i.hostShape)
              (fun i => i.name) with
          | [], [] =>
            rw [hx, hs] at h
            cases h
          | [], (s0, g0) :: st =>
            rw [hx, hs] at h
            cases h
          | (x0, g0) :: xt, [] =>
            rw [hx, hs] at h
            cases h
          | (x0, g0) :: xt, (s0, h0) :: st =>
            rw [hx, hs] at h
            cases h
            have hxm : i.xnp ∈ ((x, g0) :: xt).map Prod.fst := by
              rw [← hx]
              exact (groupby_keys_mem _ _ _ _).mpr ⟨i, hi, rfl⟩
            have hsm : i.hostShape ∈ ((s, h0) :: st).map Prod.fst := by
              rw [← hs]
              exact (groupby_keys_mem _ _ _ _).mpr ⟨i, hi, rfl⟩
            have hxt : xt = [] := by
              have := hx ▸ Nat.not_lt.mp h1
              simpa using this
            have hst : st = [] := by
              have := hs ▸ Nat.not_lt.mp h2
              simpa using this
            subst hxt
            subst hst
            simp only [List.map_cons, List.map_nil, List.mem_singleton] at hxm hsm
            exact ⟨hsm, hxm⟩

/-- C1 counterexample: `exXnpConflict` has two active fields with differing
host shapes (`(2,)` for `a`, `(3,)` for `b`), yet construction fails with the
conflicting-backend error — which names the fields and their backends, not
their shapes — because the backend check runs before the batch-shape check. -/
theorem shape_conflict_masked_by_backend_conflict :
    fieldInit (.mk "a" [] .prim (.varr .np (.cell [.scal 0, .scal 1]))) =
      .ok (some ⟨"a", .np, [2]⟩) ∧
    fieldInit (.mk "b" [] .prim (.varr .jnp (.cell [.scal 0, .scal 1, .scal 2]))) =
      .ok (some ⟨"b", .jnp, [3]⟩) ∧
    dcPostInit exXnpConflict =
      .error (.conflictingXnp [(.np, ["a"]), (.jnp, ["b"])]) ∧
    isConflictingShapesErr (dcPostInit exXnpConflict) = false := by
  refine ⟨?_, ?_, ?_, ?_⟩ <;>
    simp [exXnpConflict, dcPostInit, fieldsInit, fieldInit, isValueMissing,
      hostShapeOf, Arr.shape, List.reduceOption, groupby, insertGroup,
      isConflictingShapesErr]

/-- C1 (amended): for every successfully constructed record, `record.shape`
equals the host shape of every active field (and `record.xnp` its backend);
whenever two active fields have differing host shapes construction fails; and
when moreover every field passes its per-field validation and all active
fields share one backend, the error is precisely the conflicting-batch-shapes
`ConstructionError` carrying the offending field names grouped by their host
shapes. -/
theorem construction_shape_invariant (ty : String) (fs : List FieldB)
    (na : List (String × Int)) :
    (∀ s x, dcPostInit (.mk ty fs na) = .ok (some s, x) →
      ∀ f ∈ fs, ∀ i, fieldInit f = .ok (some i) →
        i.hostShape = s ∧ i.xnp = x) ∧
    (∀ f ∈ fs, ∀ g ∈ fs, ∀ i j, fieldInit f = .ok (some i) →
      fieldInit g = .ok (some j) → i.hostShape ≠ j.hostShape →
      ∃ e, dcPostInit (.mk ty fs na) = .error e) ∧
    (∀ infos, fieldsInit fs = .ok infos →
      (∀ i ∈ infos.reduceOption, ∀ j ∈ infos.reduceOption, i.xnp = j.xnp) →
      (∃ i ∈ infos.reduceOption, ∃ j ∈ infos.reduceOption,
        i.hostShape ≠ j.hostShape) →
      dcPostInit (.mk ty fs na) = .error (.conflictingShapes
        (groupby infos.reduceOption (fun i => i.hostShape)
          (fun i => i.name)))) := by
  refine ⟨?_, ?_, ?_⟩
  · intro s x h f hf i hi
    obtain ⟨infos, hinit, _, hval⟩ := dcPostInit_ok_facts ty fs na _ h
    obtain ⟨oi, hoi, hmem⟩ := fieldsInit_mem fs infos hinit f hf
    rw [hi] at hoi
    cases hoi
    exact hval s x rfl i (List.reduceOption_mem_iff.mpr hmem)
  · intro f hf g hg i j hi hj hne
    match hpost : dcPostInit (.mk ty fs na) with
    | .error e => exact ⟨e, rfl⟩
    | .ok r =>
      exfalso
      obtain ⟨infos, hinit, hagree, _⟩ := dcPostInit_ok_facts ty fs na r hpost
      obtain ⟨oi, hoi, hmemi⟩ := fieldsInit_mem fs infos hinit f hf
      rw [hi] at hoi
      cases hoi
      obtain ⟨oj, hoj, hmemj⟩ := fieldsInit_mem fs infos hinit g hg
      rw [hj] at hoj
      cases hoj
      exact hne (hagree i (List.reduceOption_mem_iff.mpr hmemi) j
        (List.reduceOption_mem_iff.mpr hmemj)).1
  · intro infos hinit hxnp hconf
    obtain ⟨i, hi, j, hj, hne⟩ := hconf
    have hfs : fs.isEmpty = false := by
      have hlen := fieldsInit_length fs infos hinit
      have : infos ≠ [] := by
        intro heq
        rw [heq] at hi
        simp [List.reduceOption] at hi
      cases fs with
      | nil =>
        cases infos with
        | nil => exact absurd rfl this
        | cons _ _ => simp at hlen
      | cons _ _ => rfl
    rw [dcPostInit, hinit]
    dsimp only
    rw [if_neg (by rw [hfs]; simp)]
    have hx1 : ¬ 1 < (groupby infos.reduceOption (fun i => i.xnp)
        (fun i => i.name)).length := by
      exact Nat.not_lt.mpr (groupby_key_eq_length_le_one _ _ _ hxnp)
    rw [if_neg hx1]
    have hs2 : 1 < (groupby infos.reduceOption (fun i => i.hostShape)
        (fun i => i.name)).length := by
      have hmi : i.hostShape ∈ (groupby infos.reduceOption
          (fun i => i.hostShape) (fun i => i.name)).map Prod.fst :=
        (groupby_keys_mem _ _ _ _).mpr ⟨i, hi, rfl⟩
      have hmj : j.hostShape ∈ (groupby infos.reduceOption
          (fun i => i.hostShape) (fun i => i.name)).map Prod.fst :=
        (groupby_keys_mem _ _ _ _).mpr ⟨j, hj, rfl⟩
      have h2 := two_mem_two_le_length _ _ _ hmi hmj hne
      rw [List.length_map] at h2
      omega
    rw [if_pos hs2]

/-- Witness for C1: the success part at `exPoint` (shape `(3,)`), and the
conflicting-shape part at `exShapeConflict`. -/
theorem construction_shape_invariant_witness :
    (fieldInit (.mk "scale" [] .prim (.varr .np (.cell [.scal 6, .scal 7, .scal 8]))) =
      .ok (some ⟨"scale", .np, [3]⟩)) ∧
    dcPostInit exShapeConflict =
      .error (.conflictingShapes [([2], ["a"]), ([3], ["b"])]) := by
  constructor
  · simp [fieldInit, isValueMissing, hostShapeOf, Arr.shape]
  · have happ := (construction_shape_invariant "P" exShapeConflict.fields []).2.2
      [some ⟨"a", .np, [2]⟩, some ⟨"b", .np, [3]⟩]
      (by
        simp [exShapeConflict, Dc.fields, fieldsInit, fieldInit, isValueMissing,
          hostShapeOf, Arr.shape])
      (by
        intro i hi j hj
        simp [List.reduceOption] at hi hj
        rcases hi with rfl | rfl <;> rcases hj with rfl | rfl <;> rfl)
      ⟨⟨"a", .np, [2]⟩, by simp [List.reduceOption],
        ⟨"b", .np, [3]⟩, by simp [List.reduceOption], by simp⟩
    exact happ.trans (by simp [List.reduceOption, groupby, insertGroup])

/-- C3 (code bug): the guard `if False in types:` in `stack` probes the
membership of the Boolean `False` among dict keys that are all type objects,
so it can never fire, and `stack` on records of different concrete types
returns a merged record instead of raising the intended `TypeError`.  The
first conjunct shows the membership probe is identically false; the rest
evaluates `stack` at the failing input `[exA, exB]` (distinct concrete
types) and shows it succeeds. -/
theorem stack_type_guard_dead :
    (∀ ds : List Dc,
      ((groupby ds (fun x => PyKey.pytype x.ty) (fun x => x.ty)).map
        Prod.fst).contains (PyKey.pybool false) = false) ∧
    exA.ty ≠ exB.ty ∧
    dcStack [exA, exB] = .ok (Dc.mk "PointA"
      [.mk "a" [] .prim (.varr .np (.cell [.scal 1, .scal 2]))] []) ∧
    (∀ tys, dcStack [exA, exB] ≠ .error (.stackConflictingTypes tys)) := by
  have heval : dcStack [exA, exB] = .ok (Dc.mk "PointA"
      [.mk "a" [] .prim (.varr .np (.cell [.scal 1, .scal 2]))] []) := by
    simp [exA, exB, dcStack, dcStackAux, stackFields, extractArrs, extractDcs,
      dcPostInit, fieldsInit, fieldInit, isValueMissing, groupby, insertGroup,
      alookup, dcReplace, List.reduceOption, hostShapeOf, Arr.shape, Dc.ty,
      Dc.fields, Dc.nonArray, FieldB.name, FieldB.value, FieldB.innerShape,
      FieldB.fdtype]
  refine ⟨?_, by simp [exA, exB, Dc.ty], heval, fun tys => by simp [heval]⟩
  intro ds
  by_contra hc
  rw [Bool.not_eq_false, List.contains_iff_exists_mem_beq] at hc
  obtain ⟨k, hk, hbeq⟩ := hc
  obtain ⟨a, _, hka⟩ := (groupby_keys_mem ds (fun x => PyKey.pytype x.ty)
    (fun x => x.ty) k).mp hk
  rw [← hka] at hbeq
  exact absurd (eq_of_beq hbeq) (by simp)

theorem alookup_zip_map {γ : Type} (fs : List FieldB) (g : FieldB → γ)
    (f : FieldB) (hnd : (fs.map FieldB.name).Nodup) (hf : f ∈ fs) :
    alookup f.name ((fs.map FieldB.name).zip (fs.map g)) = some (g f) := by
  induction fs with
  | nil => simp at hf
  | cons f0 ft ih =>
    simp only [List.map_cons, List.zip_cons_cons, alookup]
    rcases List.mem_cons.mp hf with rfl | hmem
    · rw [if_pos rfl]
    · have hnd0 : f0.name ∉ ft.map FieldB.name :=
        (List.nodup_cons.mp hnd).1
      have hne : f0.name ≠ f.name := by
        intro he
        exact hnd0 (he ▸ List.mem_map_of_mem FieldB.name hmem)
      rw [if_neg hne]
      exact ih (List.nodup_cons.mp hnd).2 hmem

/-- C8: `tree_flatten` then `tree_unflatten` with the returned metadata and
value list rebuilds an instance equal to the original (the constructor-side
validation passes again), and the same round trip also succeeds when every
value in the list is the `None` placeholder, producing the all-`None`
instance. -/
theorem tree_flatten_unflatten_roundtrip (d : Dc)
    (r : Option (List Nat) × Backend)
    (hnd : (d.fields.map FieldB.name).Nodup)
    (h : dcPostInit d = .ok r) :
    treeUnflatten (classOf d) (treeFlatten d).2 (treeFlatten d).1 = .ok d ∧
    treeUnflatten (classOf d) (treeFlatten d).2
      ((treeFlatten d).1.map (fun _ => .vnone)) = .ok (allNoneDc d) := by
  obtain ⟨ty, fs, na⟩ := d
  rw [Dc.fields] at hnd
  have hne : fs ≠ [] := by
    intro heq
    subst heq
    rw [dcPostInit_nil_fields] at h
    cases h
  constructor
  · have hfields : (fs.map (fun f => (f.name, f.innerShape, f.fdtype))).map
        (fun m => FieldB.mk m.1 m.2.1 m.2.2
          ((alookup m.1 ((fs.map FieldB.name).zip (fs.map FieldB.value))).getD
            .vnone)) = fs := by
      rw [List.map_map]
      have hcongr : ∀ f ∈ fs, ((fun m : String × List Nat × FDtype =>
          FieldB.mk m.1 m.2.1 m.2.2
            ((alookup m.1 ((fs.map FieldB.name).zip (fs.map FieldB.value))).getD
              .vnone)) ∘ (fun f => (f.name, f.innerShape, f.fdtype))) f =
          id f := by
        intro f hf
        simp only [Function.comp_apply, id_eq]
        rw [alookup_zip_map fs FieldB.value f hnd hf]
        exact FieldB.eta f
      rw [List.map_congr_left hcongr, List.map_id]
    dsimp only [treeUnflatten, treeFlatten, classOf, Dc.fields, Dc.ty,
      Dc.nonArray]
    rw [hfields, h]
  · have hfields2 : (fs.map (fun f => (f.name, f.innerShape, f.fdtype))).map
        (fun m => FieldB.mk m.1 m.2.1 m.2.2
          ((alookup m.1 ((fs.map FieldB.name).zip
            ((fs.map FieldB.value).map (fun _ => Val.vnone)))).getD
            .vnone)) =
        fs.map (fun f => FieldB.mk f.name f.innerShape f.fdtype Val.vnone) := by
      rw [List.map_map, List.map_map]
      have hcongr : ∀ f ∈ fs, ((fun m : String × List Nat × FDtype =>
          FieldB.mk m.1 m.2.1 m.2.2
            ((alookup m.1 ((fs.map FieldB.name).zip
              (fs.map ((fun _ => Val.vnone) ∘ FieldB.value)))).getD
              .vnone)) ∘ (fun f => (f.name, f.innerShape, f.fdtype))) f =
          (fun f => FieldB.mk f.name f.innerShape f.fdtype Val.vnone) f := by
        intro f hf
        simp only [Function.comp_apply]
        rw [alookup_zip_map fs ((fun _ => Val.vnone) ∘ FieldB.value) f hnd hf]
        rfl
      rw [List.map_congr_left hcongr]
    have hpost : dcPostInit (Dc.mk ty
        (fs.map (fun f => FieldB.mk f.name f.innerShape f.fdtype Val.vnone))
        na) = .ok (none, .np) := by
      refine dcPostInit_all_missing ty _ na ?_ ?_
      · intro heq
        rw [List.map_eq_nil_iff] at heq
        exact hne heq
      · intro f hf
        rw [List.mem_map] at hf
        obtain ⟨g, _, rfl⟩ := hf
        rw [FieldB.value]
        exact isValueMissing.eq_1
    dsimp only [treeUnflatten, treeFlatten, classOf, Dc.fields, Dc.ty,
      Dc.nonArray, allNoneDc]
    rw [hfields2, hpost]

/-- Witness for C8 at `exPoint`: the flatten/unflatten round trip rebuilds
`exPoint`, and the all-`None` value list also unflattens successfully. -/
theorem tree_flatten_unflatten_roundtrip_witness :
    treeUnflatten (classOf exPoint) (treeFlatten exPoint).2
      (treeFlatten exPoint).1 = .ok exPoint ∧
    treeUnflatten (classOf exPoint) (treeFlatten exPoint).2
      ((treeFlatten exPoint).1.map (fun _ => .vnone)) =
      .ok (allNoneDc exPoint) :=
  tree_flatten_unflatten_roundtrip exPoint (some [3], .np)
    (by simp [exPoint, Dc.fields, FieldB.name])
    (by
      simp [exPoint, dcPostInit, fieldsInit, fieldInit, isValueMissing,
        hostShapeOf, Arr.shape, List.reduceOption, groupby, insertGroup])

theorem hostShapeOf_append (inner h : List Nat) :
    hostShapeOf inner (h ++ inner) = h := by
  rw [hostShapeOf]
  by_cases hi : inner = []
  · subst hi
    simp
  · rw [if_neg hi]
    rw [List.length_append, Nat.add_sub_cancel]
    exact List.take_left h inner

theorem fieldInit_some_active (f : FieldB) (i : FieldInfo)
    (h : fieldInit f = .ok (some i)) : isValueMissing f.value = false := by
  obtain ⟨n, sh, dt, v⟩ := f
  rw [FieldB.value]
  by_cases hm : isValueMissing v = true
  · rw [fieldInit_missing (FieldB.mk n sh dt v) (by rw [FieldB.value]; exact hm)]
      at h
    cases h
  · exact Bool.not_eq_true _ ▸ hm

theorem fieldInit_prim_intro (nm : String) (inner : List Nat) (b : Backend)
    (a : Arr) (h : hostShapeOf inner a.shape ++ inner = a.shape) :
    fieldInit (.mk nm inner .prim (.varr b a)) =
      .ok (some ⟨nm, b, hostShapeOf inner a.shape⟩) := by
  rw [fieldInit.eq_def]
  simp only [isValueMissing.eq_3, Bool.false_eq_true, if_false, h, if_true]

theorem fieldInit_prim_inv (nm : String) (inner : List Nat) (b : Backend)
    (a : Arr) (i : FieldInfo)
    (h : fieldInit (.mk nm inner .prim (.varr b a)) = .ok (some i)) :
    i = ⟨nm, b, hostShapeOf inner a.shape⟩ ∧
      hostShapeOf inner a.shape ++ inner = a.shape := by
  rw [fieldInit.eq_def] at h
  simp only [isValueMissing.eq_3, Bool.false_eq_true, if_false] at h
  by_cases hc : hostShapeOf inner a.shape ++ inner = a.shape
  · rw [if_pos hc] at h
    cases h
    exact ⟨rfl, hc⟩
  · rw [if_neg hc] at h
    cases h

theorem fieldInit_dcls_intro (nm : String) (inner : List Nat) (tn : String)
    (sub : Dc) (vs0 : List Nat) (xb : Backend)
    (hact : hasActive sub = true) (hty : sub.ty = tn)
    (hpost : dcPostInit sub = .ok (some vs0, xb))
    (h : hostShapeOf inner vs0 ++ inner = vs0) :
    fieldInit (.mk nm inner (.dcls tn) (.vdc sub)) =
      .ok (some ⟨nm, xb, hostShapeOf inner vs0⟩) := by
  rw [fieldInit.eq_def]
  have hmiss : isValueMissing (Val.vdc sub) = false := by
    rw [isValueMissing, hact]
    rfl
  simp only [hmiss, Bool.false_eq_true, if_false, if_pos hty, hpost, h, if_true]

theorem fieldInit_dcls_inv (nm : String) (inner : List Nat) (tn : String)
    (sub : Dc) (i : FieldInfo)
    (h : fieldInit (.mk nm inner (.dcls tn) (.vdc sub)) = .ok (some i)) :
    sub.ty = tn ∧ ∃ vs0, dcPostInit sub = .ok (some vs0, i.xnp) ∧
      i = ⟨nm, i.xnp, hostShapeOf inner vs0⟩ ∧
      hostShapeOf inner vs0 ++ inner = vs0 := by
  rw [fieldInit.eq_def] at h
  dsimp only at h
  by_cases hm : isValueMissing (Val.vdc sub) = true
  · rw [if_pos hm] at h
    cases h
  · rw [if_neg hm] at h
    by_cases hty : sub.ty = tn
    · rw [if_pos hty] at h
      refine ⟨hty, ?_⟩
      match hpost : dcPostInit sub with
      | .error e => rw [hpost] at h; cases h
      | .ok (none, xb) => rw [hpost] at h; cases h
      | .ok (some vs0, xb) =>
        rw [hpost] at h
        dsimp only at h
        by_cases hc : hostShapeOf inner vs0 ++ inner = vs0
        · rw [if_pos hc] at h
          cases h
          exact ⟨vs0, rfl, rfl, hc⟩
        · rw [if_neg hc] at h
          cases h
    · rw [if_neg hty] at h
      cases h

theorem fieldsInit_forall2 (fs : List FieldB) (infos : List (Option FieldInfo))
    (h : fieldsInit fs = .ok infos) :
    List.Forall₂ (fun f oi => fieldInit f = .ok oi) fs infos := by
  induction fs generalizing infos with
  | nil =>
    rw [fieldsInit_nil] at h
    cases h
    exact List.Forall₂.nil
  | cons f ft ih =>
    rw [fieldsInit_cons] at h
    match hf : fieldInit f with
    | .error e => rw [hf] at h; cases h
    | .ok i =>
      rw [hf] at h
      match ht : fieldsInit ft with
      | .error e => rw [ht] at h; cases h
      | .ok rest =>
        rw [ht] at h
        cases h
        exact List.Forall₂.cons hf (ih rest ht)

theorem fieldInit_none_missing (f : FieldB) (h : fieldInit f = .ok none) :
    isValueMissing f.value = true := by
  by_cases hm : isValueMissing f.value = true
  · exact hm
  · obtain ⟨n, sh, dt, v⟩ := f
    rw [FieldB.value] at hm
    rw [fieldInit.eq_def] at h
    dsimp only at h
    rw [if_neg hm] at h
    match dt, v with
    | .dcls tn, .vdc sub =>
      dsimp only at h
      by_cases hty : sub.ty = tn
      · rw [if_pos hty] at h
        match hp : dcPostInit sub with
        | .error e => rw [hp] at h; cases h
        | .ok (none, xb) => rw [hp] at h; cases h
        | .ok (some vs0, xb) =>
          rw [hp] at h
          dsimp only at h
          by_cases hc : hostShapeOf sh vs0 ++ sh = vs0
          · rw [if_pos hc] at h; cases h
          · rw [if_neg hc] at h; cases h
      · rw [if_neg hty] at h; cases h
    | .dcls tn, .vnone => exact absurd isValueMissing.eq_1 hm
    | .dcls tn, .vobj => exact absurd isValueMissing.eq_2 hm
    | .dcls tn, .varr b a => dsimp only at h; cases h
    | .prim, .vdc sub => dsimp only at h; cases h
    | .prim, .vnone => exact absurd isValueMissing.eq_1 hm
    | .prim, .vobj => exact absurd isValueMissing.eq_2 hm
    | .prim, .varr b a =>
      dsimp only at h
      by_cases hc : hostShapeOf sh a.shape ++ sh = a.shape
      · rw [if_pos hc] at h; cases h
      · rw [if_neg hc] at h; cases h

theorem forall2_active_filter (fs : List FieldB)
    (infos : List (Option FieldInfo))
    (hf2 : List.Forall₂ (fun f oi => fieldInit f = .ok oi) fs infos) :
    infos.reduceOption.length =
      (fs.filter (fun f => !(isValueMissing f.value))).length := by
  induction hf2 with
  | nil => rfl
  | cons hfo htail ih =>
    rename_i f oi ft infot
    match oi with
    | none =>
      have hm := fieldInit_none_missing f hfo
      rw [List.filter_cons, if_neg (by simp [hm])]
      simpa [List.reduceOption] using ih
    | some i =>
      have hm := fieldInit_some_active f i hfo
      rw [List.filter_cons, if_pos (by simp [hm])]
      simpa [List.reduceOption] using ih

theorem anyActive_iff (fs : List FieldB) :
    anyActive fs = true ↔ ∃ f ∈ fs, isValueMissing f.value = false := by
  induction fs with
  | nil => simp [anyActive]
  | cons f ft ih =>
    rw [anyActive_cons]
    simp only [Bool.or_eq_true, Bool.not_eq_true', ih, List.mem_cons]
    constructor
    · rintro (h | ⟨g, hg, hgm⟩)
      · exact ⟨f, Or.inl rfl, h⟩
      · exact ⟨g, Or.inr hg, hgm⟩
    · rintro ⟨g, rfl | hg, hgm⟩
      · exact Or.inl hgm
      · exact Or.inr ⟨g, hg, hgm⟩

theorem groupby_ne_nil {α κ β : Type} [DecidableEq κ]
    (l : List α) (key : α → κ) (val : α → β) (hl : l ≠ []) :
    groupby l key val ≠ [] := by
  match l with
  | [] => exact absurd rfl hl
  | a :: rest =>
    intro hg
    have := (groupby_keys_mem (a :: rest) key val (key a)).mpr
      ⟨a, List.mem_cons_self _ _, rfl⟩
    rw [hg] at this
    simp at this

theorem dcPostInit_intro (ty : String) (fs : List FieldB)
    (na : List (String × Int)) (infos : List (Option FieldInfo))
    (s : List Nat) (x : Backend)
    (hinit : fieldsInit fs = .ok infos)
    (hne : infos.reduceOption ≠ [])
    (hall : ∀ i ∈ infos.reduceOption, i.hostShape = s ∧ i.xnp = x) :
    dcPostInit (.mk ty fs na) = .ok (some s, x) := by
  have hfs : fs.isEmpty = false := by
    cases fs with
    | nil =>
      rw [fieldsInit_nil] at hinit
      cases hinit
      simp at hne
    | cons _ _ => rfl
  rw [dcPostInit, hinit]
  dsimp only
  rw [if_neg (by rw [hfs]; simp)]
  have hx1 : ¬ 1 < (groupby infos.reduceOption (fun i => i.xnp)
      (fun i => i.name)).length :=
    Nat.not_lt.mpr (groupby_key_eq_length_le_one _ _ _
      (fun a ha b hb => ((hall a ha).2).trans ((hall b hb).2).symm))
  have hs1 : ¬ 1 < (groupby infos.reduceOption (fun i => i.hostShape)
      (fun i => i.name)).length :=
    Nat.not_lt.mpr (groupby_key_eq_length_le_one _ _ _
      (fun a ha b hb => ((hall a ha).1).trans ((hall b hb).1).symm))
  rw [if_neg hx1, if_neg hs1]
  match hx : groupby infos.reduceOption (fun i => i.xnp) (fun i => i.name),
    hs : groupby infos.reduceOption (fun i => i.hostShape) (fun i => i.name) with
  | [], _ => exact absurd hx (groupby_ne_nil _ _ _ hne)
  | (x0, g0) :: xt, [] => exact absurd hs (groupby_ne_nil _ _ _ hne)
  | (x0, g0) :: xt, (s0, h0) :: st =>
    have hx0 : x0 = x := by
      have hm : x0 ∈ ((x0, g0) :: xt).map Prod.fst := by simp
      rw [← hx] at hm
      obtain ⟨a, ha, hka⟩ := (groupby_keys_mem _ _ _ _).mp hm
      rw [← hka]
      exact (hall a ha).2
    have hs0 : s0 = s := by
      have hm : s0 ∈ ((s0, h0) :: st).map Prod.fst := by simp
      rw [← hs] at hm
      obtain ⟨a, ha, hka⟩ := (groupby_keys_mem _ _ _ _).mp hm
      rw [← hka]
      exact (hall a ha).1
    rw [hx0, hs0]

theorem dcPostInit_ok_some_active (ty : String) (fs : List FieldB)
    (na : List (String × Int)) (s : List Nat) (x : Backend)
    (h : dcPostInit (.mk ty fs na) = .ok (some s, x)) :
    ∃ infos, fieldsInit fs = .ok infos ∧ infos.reduceOption ≠ [] := by
  rw [dcPostInit] at h
  match hfi : fieldsInit fs with
  | .error e => rw [hfi] at h; cases h
  | .ok infos =>
    rw [hfi] at h
    dsimp only at h
    refine ⟨infos, rfl, ?_⟩
    intro hnil
    rw [hnil] at h
    by_cases hemp : fs.isEmpty = true
    · rw [if_pos hemp] at h; cases h
    · rw [if_neg hemp] at h
      rw [show groupby ([] : List FieldInfo) (fun i => i.xnp)
          (fun i => i.name) = [] from rfl,
        show groupby ([] : List FieldInfo) (fun i => i.hostShape)
          (fun i => i.name) = [] from rfl] at h
      simp at h

theorem hasActive_of_postInit_some (ty : String) (fs : List FieldB)
    (na : List (String × Int)) (s : List Nat) (x : Backend)
    (h : dcPostInit (.mk ty fs na) = .ok (some s, x)) :
    hasActive (.mk ty fs na) = true := by
  obtain ⟨infos, hinit, hne⟩ := dcPostInit_ok_some_active ty fs na s x h
  rw [hasActive, anyActive_iff]
  have hlen := forall2_active_filter fs infos (fieldsInit_forall2 fs infos hinit)
  match hflt : fs.filter (fun f => !(isValueMissing f.value)) with
  | [] =>
    rw [hflt] at hlen
    simp at hlen
    exact absurd hlen hne
  | g :: gt =>
    have hg : g ∈ fs.filter (fun f => !(isValueMissing f.value)) := by
      rw [hflt]; exact List.mem_cons_self _ _
    exact ⟨g, List.mem_of_mem_filter hg, by
      have := List.of_mem_filter hg
      simpa using this⟩

theorem elemsValidate_ok (es : List Dc)
    (h : ∀ e ∈ es, ∃ r, dcPostInit e = .ok r) :
    elemsValidate es = .ok es := by
  induction es with
  | nil => rfl
  | cons e et ih =>
    obtain ⟨r, hr⟩ := h e (List.mem_cons_self _ _)
    rw [elemsValidate, hr, ih (fun e' he' => h e' (List.mem_cons_of_mem _ he'))]

theorem getD_map_lt {α β : Type} (l : List α) (g : α → β) (k : Nat)
    (d : β) (d' : α) (hk : k < l.length) :
    (l.map g).getD k d = g (l.getD k d') := by
  rw [List.getD_eq_getElem _ _ (by simpa using hk), List.getD_eq_getElem _ _ hk]
  simp

theorem reconstruct_getD {α : Type} (l : List α) (d : α) :
    (List.range l.length).map (fun k => l.getD k d) = l := by
  induction l with
  | nil => rfl
  | cons a t ih =>
    rw [List.length_cons, List.range_succ_eq_map, List.map_cons, List.map_map]
    have hcomp : ((fun k => (a :: t).getD k d) ∘ Nat.succ) =
        (fun k => t.getD k d) := by
      funext k
      simp [List.getD]
    rw [hcomp, ih]
    rfl

theorem zipStar_const (l0 : List Val) (rest : List (List Val)) (m : Nat)
    (hlen : ∀ l ∈ l0 :: rest, l.length = m) :
    zipStar (l0 :: rest) = (List.range m).map
      (fun k => (l0 :: rest).map (fun l => l.getD k default)) := by
  rw [zipStar]
  have hfold : rest.foldl (fun acc l => min acc l.length) l0.length = m := by
    have h0 := hlen l0 (List.mem_cons_self _ _)
    have : ∀ acc, acc = m → rest.foldl (fun acc l => min acc l.length) acc = m := by
      induction rest with
      | nil => intro acc h; simpa using h
      | cons r rt ih =>
        intro acc hacc
        rw [List.foldl_cons]
        refine ih (fun l hl => ?_) _ ?_
        · rcases List.mem_cons.mp hl with rfl | hl
          · exact hlen l (List.mem_cons_self _ _)
          · exact hlen l (List.mem_cons_of_mem _ (List.mem_cons_of_mem _ hl))
        · rw [hacc, hlen r (List.mem_cons_of_mem _ (List.mem_cons_self _ _))]
          simp
    exact this l0.length h0
  rw [hfold]

theorem rect_cell_shapes (x0 : Arr) (xs : List Arr)
    (h : (Arr.cell (x0 :: xs)).rect = true) :
    ∀ y ∈ x0 :: xs, y.shape = x0.shape := by
  rw [Arr.rect, rectList] at h
  simp only [Bool.and_eq_true, List.all_eq_true, decide_eq_true_eq] at h
  intro y hy
  rcases List.mem_cons.mp hy with rfl | hy
  · rfl
  · exact h.1.2 y hy

theorem wfDc_parts (ty : String) (fs : List FieldB) (na : List (String × Int))
    (h : wfDc (.mk ty fs na) = true) :
    (fs.map FieldB.name).Nodup ∧ ∀ f ∈ fs, wfVal f.value = true := by
  rw [wfDc] at h
  simp only [Bool.and_eq_true, decide_eq_true_eq] at h
  refine ⟨h.1, ?_⟩
  have h2 := h.2
  clear h
  induction fs with
  | nil => intro f hf; simp at hf
  | cons f ft ih =>
    intro g hg
    cases f with
    | mk n sh dt v =>
      rw [wfFields] at h2
      simp only [Bool.and_eq_true] at h2
      rcases List.mem_cons.mp hg with rfl | hg
      · rw [FieldB.value]
        exact h2.1
      · exact ih h2.2 g hg

theorem wfVal_varr (b : Backend) (a : Arr) (h : wfVal (.varr b a) = true) :
    a.rect = true := by
  rw [wfVal] at h
  exact h

theorem wfVal_vdc (sub : Dc) (h : wfVal (.vdc sub) = true) :
    wfDc sub = true := by
  rw [wfVal] at h
  exact h

theorem alookup_name_map {β : Type} (l : List FieldB) (h : FieldB → β)
    (f : FieldB) (hf : f ∈ l) (hnd : (l.map FieldB.name).Nodup) :
    alookup f.name (l.map (fun g => (g.name, h g))) = some (h f) := by
  induction l with
  | nil => simp at hf
  | cons g gt ih =>
    rw [List.map_cons, alookup]
    rcases List.mem_cons.mp hf with rfl | hmem
    · rw [if_pos rfl]
    · have hne : g.name ≠ f.name := by
        intro he
        exact (List.nodup_cons.mp hnd).1
          (he ▸ List.mem_map_of_mem FieldB.name hmem)
      rw [if_neg hne]
      exact ih hmem (List.nodup_cons.mp hnd).2

theorem alookup_name_not_mem {β : Type} (l : List FieldB) (h : FieldB → β)
    (nm : String) (hnm : nm ∉ l.map FieldB.name) :
    alookup nm (l.map (fun g => (g.name, h g))) = none := by
  induction l with
  | nil => rfl
  | cons g gt ih =>
    rw [List.map_cons, alookup]
    rw [List.map_cons, List.mem_cons] at hnm
    rw [if_neg (fun he => hnm (Or.inl he.symm))]
    exact ih (fun hm => hnm (Or.inr hm))

theorem filter_names_nodup (fs : List FieldB) (p : FieldB → Bool)
    (hnd : (fs.map FieldB.name).Nodup) :
    ((fs.filter p).map FieldB.name).Nodup :=
  List.Nodup.sublist (List.Sublist.map FieldB.name (List.filter_sublist fs)) hnd

theorem name_inj_of_nodup (fs : List FieldB)
    (hnd : (fs.map FieldB.name).Nodup) (f g : FieldB) (hf : f ∈ fs)
    (hg : g ∈ fs) (h : f.name = g.name) : f = g :=
  List.inj_on_of_nodup_map hnd hf hg h

theorem replAt_missing (k : Nat) (f : FieldB)
    (h : isValueMissing f.value = true) : replAt k f = f := by
  rw [replAt, if_pos h]

theorem replAt_active (k : Nat) (f : FieldB)
    (h : isValueMissing f.value = false) :
    replAt k f =
      .mk f.name f.innerShape f.fdtype ((iterValsOf f.value).getD k default) := by
  rw [replAt, if_neg (by rw [h]; simp)]

theorem replAt_name (k : Nat) (f : FieldB) : (replAt k f).name = f.name := by
  rw [replAt]
  by_cases h : isValueMissing f.value = true
  · rw [if_pos h]
  · rw [if_neg h, FieldB.name]

theorem replAt_innerShape (k : Nat) (f : FieldB) :
    (replAt k f).innerShape = f.innerShape := by
  rw [replAt]
  by_cases h : isValueMissing f.value = true
  · rw [if_pos h]
  · rw [if_neg h, FieldB.innerShape]

theorem replAt_fdtype (k : Nat) (f : FieldB) :
    (replAt k f).fdtype = f.fdtype := by
  rw [replAt]
  by_cases h : isValueMissing f.value = true
  · rw [if_pos h]
  · rw [if_neg h, FieldB.fdtype]

theorem cons_getD_eq {α : Type} (l : List α) (d : α) (n : Nat)
    (hlen : l.length = n + 1) :
    l.getD 0 d :: (List.range n).map (fun j => l.getD (j + 1) d) = l := by
  have h := reconstruct_getD l d
  rw [hlen, List.range_succ_eq_map, List.map_cons, List.map_map] at h
  have hcomp : ((fun k => l.getD k d) ∘ Nat.succ) =
      (fun j => l.getD (j + 1) d) := rfl
  rw [hcomp] at h
  exact h

theorem dcStack_cons (a : Dc) (l : List Dc) :
    dcStack (a :: l) = dcStackAux a l := by
  rw [dcStack]

theorem stack_guard_probe_false (ds : List Dc) :
    ((groupby ds (fun x => PyKey.pytype x.ty) (fun x => x.ty)).map
      Prod.fst).contains (PyKey.pybool false) = false := by
  by_contra hc
  rw [Bool.not_eq_false, List.contains_iff_exists_mem_beq] at hc
  obtain ⟨k, hk, hbeq⟩ := hc
  obtain ⟨a, _, hka⟩ := (groupby_keys_mem ds (fun x => PyKey.pytype x.ty)
    (fun x => x.ty) k).mp hk
  rw [← hka] at hbeq
  exact absurd (eq_of_beq hbeq) (by simp)

theorem reduceOption_map_ite (fs : List FieldB) (g : FieldB → FieldInfo) :
    (fs.map (fun f => if isValueMissing f.value then none else
      some (g f))).reduceOption =
      (fs.filter (fun f => !(isValueMissing f.value))).map g := by
  induction fs with
  | nil => rfl
  | cons f ft ih =>
    rw [List.map_cons, List.filter_cons]
    by_cases h : isValueMissing f.value = true
    · rw [if_pos h, if_neg (by simp [h])]
      simpa [List.reduceOption] using ih
    · rw [if_neg h, if_pos (by simp [Bool.not_eq_true _ ▸ h])]
      rw [List.map_cons]
      simpa [List.reduceOption] using ih

theorem iterFields_of_sliceOK (x : Backend) (n : Nat) (s : List Nat)
    (fs : List FieldB) (hOK : ∀ f ∈ fs, FieldSliceOK x n s f) :
    iterFields fs = .ok ((fs.filter (fun f => !(isValueMissing f.value))).map
      (fun f => (f.name, iterValsOf f.value))) := by
  induction fs with
  | nil => rw [iterFields]; rfl
  | cons f ft ih =>
    obtain ⟨nm, sh, dt, v⟩ := f
    rw [iterFields.eq_def]
    dsimp only
    rw [List.filter_cons]
    by_cases hm : isValueMissing v = true
    · rw [if_pos hm,
        if_neg (by rw [show (FieldB.mk nm sh dt v).value = v from rfl, hm]; simp)]
      exact ih (fun g hg => hOK g (List.mem_cons_of_mem _ hg))
    · have hm2 : isValueMissing v = false := by
        cases hval : isValueMissing v
        · rfl
        · exact absurd hval hm
      rcases hOK (FieldB.mk nm sh dt v) (List.mem_cons_self _ _) with hmiss | hact
      · rw [show (FieldB.mk nm sh dt v).value = v from rfl] at hmiss
        exact absurd hmiss hm
      · obtain ⟨vs, hvi, hvo, _, _, _⟩ := hact
        rw [show (FieldB.mk nm sh dt v).value = v from rfl] at hvi hvo
        rw [if_neg hm, hvi,
          ih (fun g hg => hOK g (List.mem_cons_of_mem _ hg)),
          if_pos (by rw [show (FieldB.mk nm sh dt v).value = v from rfl, hm2]; rfl)]
        rw [List.map_cons]
        rw [show (FieldB.mk nm sh dt v).name = nm from rfl,
          show (FieldB.mk nm sh dt v).value = v from rfl, hvo]

theorem fieldsInit_slices (x : Backend) (n : Nat) (s : List Nat) (k : Nat)
    (fs : List FieldB) (hOK : ∀ f ∈ fs, FieldSliceOK x n s f)
    (hk : k < n + 1) :
    fieldsInit (fs.map (replAt k)) = .ok (fs.map (fun f =>
      if isValueMissing f.value then none else some ⟨f.name, x, s⟩)) := by
  induction fs with
  | nil => exact fieldsInit_nil
  | cons f ft ih =>
    rw [List.map_cons, fieldsInit_cons, List.map_cons,
      ih (fun g hg => hOK g (List.mem_cons_of_mem _ hg))]
    by_cases hm : isValueMissing f.value = true
    · rw [replAt_missing k f hm, fieldInit_missing f hm, if_pos hm]
    · have hm2 : isValueMissing f.value = false := by
        cases hval : isValueMissing f.value
        · rfl
        · exact absurd hval hm
      rcases hOK f (List.mem_cons_self _ _) with hmiss | hact
      · exact absurd hmiss hm
      · obtain ⟨vs, _, hvo, _, hfi, _⟩ := hact
        rw [replAt_active k f hm2, hvo, hfi k hk, if_neg hm]

theorem elem_postInit (ty : String) (fs : List FieldB)
    (na : List (String × Int)) (x : Backend) (n : Nat) (s : List Nat)
    (k : Nat) (hk : k < n + 1) (hOK : ∀ f ∈ fs, FieldSliceOK x n s f)
    (hact : ∃ f ∈ fs, isValueMissing f.value = false) :
    dcPostInit (.mk ty (fs.map (replAt k)) na) = .ok (some s, x) := by
  refine dcPostInit_intro ty _ na _ s x (fieldsInit_slices x n s k fs hOK hk)
    ?_ ?_
  · rw [reduceOption_map_ite fs (fun f => ⟨f.name, x, s⟩)]
    obtain ⟨f, hf, hfm⟩ := hact
    intro hnil
    rw [List.map_eq_nil_iff, List.filter_eq_nil_iff] at hnil
    exact hnil f hf (by rw [hfm]; simp)
  · rw [reduceOption_map_ite fs (fun f => ⟨f.name, x, s⟩)]
    intro i hi
    rw [List.mem_map] at hi
    obtain ⟨f, _, rfl⟩ := hi
    exact ⟨rfl, rfl⟩

theorem dcReplace_slice (ty : String) (fs : List FieldB)
    (na : List (String × Int)) (k : Nat)
    (hnd : (fs.map FieldB.name).Nodup) :
    dcReplace (.mk ty fs na) (sliceAssigns fs k) =
      .mk ty (fs.map (replAt k)) na := by
  rw [dcReplace, Dc.ty, Dc.fields, Dc.nonArray]
  have hcongr : ∀ f ∈ fs, (fun f => FieldB.mk f.name f.innerShape f.fdtype
      ((alookup f.name (sliceAssigns fs k)).getD f.value)) f = replAt k f := by
    intro f hf
    dsimp only
    by_cases hm : isValueMissing f.value = true
    · have hnin : f.name ∉ (fs.filter
          (fun f => !(isValueMissing f.value))).map FieldB.name := by
        intro hmem
        rw [List.mem_map] at hmem
        obtain ⟨g, hgf, hgn⟩ := hmem
        have hgfs := List.mem_of_mem_filter hgf
        have hgact := List.of_mem_filter hgf
        have := name_inj_of_nodup fs hnd g f hgfs hf hgn
        subst this
        rw [hm] at hgact
        simp at hgact
      have hlook := alookup_name_not_mem
        (fs.filter (fun f => !(isValueMissing f.value)))
        (fun g => (iterValsOf g.value).getD k default) f.name hnin
      dsimp only at hlook
      rw [sliceAssigns, hlook, replAt_missing k f hm]
      exact FieldB.eta f
    · have hm2 : isValueMissing f.value = false := by
        cases hval : isValueMissing f.value
        · rfl
        · exact absurd hval hm
      have hfin : f ∈ fs.filter (fun f => !(isValueMissing f.value)) :=
        List.mem_filter.mpr ⟨hf, by rw [hm2]; rfl⟩
      have hlook := alookup_name_map
        (fs.filter (fun f => !(isValueMissing f.value)))
        (fun g => (iterValsOf g.value).getD k default) f hfin
        (filter_names_nodup fs _ hnd)
      dsimp only at hlook
      rw [sliceAssigns, hlook, replAt_active k f hm2]
      rfl
  rw [List.map_congr_left hcongr]

theorem elem_lookup (fs : List FieldB) (k : Nat)
    (hnd : (fs.map FieldB.name).Nodup) (f : FieldB) (hf : f ∈ fs) :
    alookup f.name ((fs.map (replAt k)).map (fun g => (g.name, g.value))) =
      some ((replAt k f).value) := by
  rw [List.map_map]
  have hcomp : ((fun g : FieldB => (g.name, g.value)) ∘ replAt k) =
      (fun g => (g.name, (replAt k g).value)) := by
    funext g
    rw [Function.comp_apply, replAt_name]
  rw [hcomp]
  have hlook := alookup_name_map fs (fun g => (replAt k g).value) f hf hnd
  dsimp only at hlook
  exact hlook

theorem extractArrs_map (nm : String) (js : List Nat) (ef : Nat → Dc)
    (bf : Nat → Backend) (af : Nat → Arr)
    (h : ∀ j ∈ js, alookup nm ((ef j).fields.map (fun g => (g.name, g.value))) =
      some (.varr (bf j) (af j))) :
    extractArrs nm (js.map ef) = .ok (js.map af) := by
  induction js with
  | nil => rfl
  | cons j jt ih =>
    rw [List.map_cons, extractArrs, h j (List.mem_cons_self _ _),
      ih (fun j' hj' => h j' (List.mem_cons_of_mem _ hj')), List.map_cons]

theorem extractDcs_map (nm : String) (js : List Nat) (ef : Nat → Dc)
    (df : Nat → Dc)
    (h : ∀ j ∈ js, alookup nm ((ef j).fields.map (fun g => (g.name, g.value))) =
      some (.vdc (df j))) :
    extractDcs nm (js.map ef) = .ok (js.map df) := by
  induction js with
  | nil => rfl
  | cons j jt ih =>
    rw [List.map_cons, extractDcs, h j (List.mem_cons_self _ _),
      ih (fun j' hj' => h j' (List.mem_cons_of_mem _ hj')), List.map_cons]

theorem dcReplace_back (ty : String) (fs : List FieldB)
    (na : List (String × Int)) (hnd : (fs.map FieldB.name).Nodup) :
    dcReplace (.mk ty (fs.map (replAt 0)) na)
      ((fs.filter (fun f => !(isValueMissing f.value))).map
        (fun f => (f.name, f.value))) = .mk ty fs na := by
  rw [dcReplace, Dc.ty, Dc.fields, Dc.nonArray, List.map_map]
  have hcongr : ∀ f ∈ fs, ((fun g => FieldB.mk g.name g.innerShape g.fdtype
      ((alookup g.name ((fs.filter (fun f => !(isValueMissing f.value))).map
        (fun f => (f.name, f.value)))).getD g.value)) ∘ replAt 0) f = id f := by
    intro f hf
    rw [Function.comp_apply, id_eq]
    by_cases hm : isValueMissing f.value = true
    · have hnin : f.name ∉ (fs.filter
          (fun f => !(isValueMissing f.value))).map FieldB.name := by
        intro hmem
        rw [List.mem_map] at hmem
        obtain ⟨g, hgf, hgn⟩ := hmem
        have hgfs := List.mem_of_mem_filter hgf
        have hgact := List.of_mem_filter hgf
        have := name_inj_of_nodup fs hnd g f hgfs hf hgn
        subst this
        rw [hm] at hgact
        simp at hgact
      have hlook := alookup_name_not_mem
        (fs.filter (fun f => !(isValueMissing f.value)))
        (fun g => g.value) f.name hnin
      dsimp only at hlook
      rw [replAt_missing 0 f hm, hlook]
      exact FieldB.eta f
    · have hm2 : isValueMissing f.value = false := by
        cases hval : isValueMissing f.value
        · rfl
        · exact absurd hval hm
      have hfin : f ∈ fs.filter (fun f => !(isValueMissing f.value)) :=
        List.mem_filter.mpr ⟨hf, by rw [hm2]; rfl⟩
      have hlook := alookup_name_map
        (fs.filter (fun f => !(isValueMissing f.value)))
        (fun g => g.value) f hfin (filter_names_nodup fs _ hnd)
      dsimp only at hlook
      rw [replAt_name, replAt_innerShape, replAt_fdtype, hlook]
      exact FieldB.eta f
  rw [List.map_congr_left hcongr, List.map_id]

theorem stackFields_walk (ty : String) (na : List (String × Int))
    (fsAll : List FieldB) (hndAll : (fsAll.map FieldB.name).Nodup)
    (x : Backend) (n : Nat) (s : List Nat) :
    ∀ gs : List FieldB, (∀ f ∈ gs, f ∈ fsAll) →
    (∀ f ∈ gs, FieldSliceOK x n s f) →
    stackFields (gs.map (replAt 0))
      (Dc.mk ty (fsAll.map (replAt 0)) na ::
        (List.range n).map (fun j => Dc.mk ty (fsAll.map (replAt (j + 1))) na))
      x =
      .ok ((gs.filter (fun f => !(isValueMissing f.value))).map
        (fun f => (f.name, f.value))) := by
  intro gs
  induction gs with
  | nil =>
    intro _ _
    rw [stackFields.eq_def]
    rfl
  | cons f gt ih =>
    intro hsub hOK
    have hrec := ih (fun g hg => hsub g (List.mem_cons_of_mem _ hg))
      (fun g hg => hOK g (List.mem_cons_of_mem _ hg))
    have hfAll := hsub f (List.mem_cons_self _ _)
    rw [List.map_cons, List.filter_cons]
    by_cases hm : isValueMissing f.value = true
    · obtain ⟨nm, sh, dt, v⟩ := f
      have hm3 : isValueMissing v = true := hm
      rw [replAt_missing 0 _ hm, stackFields.eq_def]
      dsimp only
      rw [if_pos hm3, hrec,
        if_neg (by
          rw [show (FieldB.mk nm sh dt v).value = v from rfl, hm3]
          simp)]
    · have hm2 : isValueMissing f.value = false := by
        cases hval : isValueMissing f.value
        · rfl
        · exact absurd hval hm
      rcases hOK f (List.mem_cons_self _ _) with hmiss | hact
      · exact absurd hmiss hm
      obtain ⟨vs, hvi, hvo, hvlen, hfi, hsb⟩ := hact
      have hslice0 := hfi 0 (by omega)
      have hs0m := fieldInit_some_active _ _ hslice0
      rw [FieldB.value] at hs0m
      have hpoint : ∀ k, k < n + 1 → ∀ j, j + 1 = k →
          alookup f.name (((fsAll.map (replAt k)).map
            (fun g => (g.name, g.value)))) = some (vs.getD k default) := by
        intro k hk j hj
        rw [elem_lookup fsAll k hndAll f hfAll, replAt_active k f hm2,
          show (FieldB.mk f.name f.innerShape f.fdtype
            ((iterValsOf f.value).getD k default)).value =
            (iterValsOf f.value).getD k default from rfl, hvo]
      rw [if_pos (by rw [hm2]; rfl)]
      rcases hsb with ⟨xs, hdt, hval, hvs⟩ | ⟨tn, sub, se0, serest, hdt, hval, hvs, hstk⟩
      · -- primitive field
        have hxslen : xs.length = n + 1 := by
          rw [hvs, List.length_map] at hvlen
          exact hvlen
        obtain ⟨nm, sh, dt, v⟩ := f
        rw [FieldB.fdtype] at hdt
        rw [FieldB.value] at hval
        subst hdt
        subst hval
        have hvo2 : iterValsOf (Val.varr x (Arr.cell xs)) = vs := hvo
        rw [replAt_active 0 _ hm2, FieldB.value, FieldB.name,
          FieldB.innerShape, FieldB.fdtype, hvo2, hvs,
          getD_map_lt xs (Val.varr x) 0 default default (by omega)]
        rw [stackFields.eq_def]
        dsimp only
        rw [if_neg (by rw [isValueMissing.eq_3]; simp)]
        have hextract : extractArrs nm ((List.range n).map
            (fun j => Dc.mk ty (fsAll.map (replAt (j + 1))) na)) =
            .ok ((List.range n).map (fun j => xs.getD (j + 1) default)) := by
          refine extractArrs_map nm (List.range n) _ (fun _ => x) _ ?_
          intro j hj
          have hjn : j < n := List.mem_range.mp hj
          have hp := hpoint (j + 1) (by omega) j rfl
          rw [show (Dc.mk ty (fsAll.map (replAt (j + 1))) na).fields =
            fsAll.map (replAt (j + 1)) from rfl]
          rw [show (FieldB.mk nm sh FDtype.prim
            (Val.varr x (Arr.cell xs))).name = nm from rfl] at hp
          rw [hp, hvs, getD_map_lt xs (Val.varr x) (j + 1) default default
            (by omega)]
        simp only [hextract, hrec, List.map_cons]
        rw [cons_getD_eq xs default n hxslen]
        rfl
      · -- nested dataclass field
        have hsublen : serest.length = n := by
          rw [hvs, List.length_map, List.length_cons] at hvlen
          omega
        obtain ⟨nm, sh, dt, v⟩ := f
        rw [FieldB.fdtype] at hdt
        rw [FieldB.value] at hval
        subst hdt
        subst hval
        have hvo2 : iterValsOf (Val.vdc sub) = vs := hvo
        rw [replAt_active 0 _ hm2, FieldB.value, FieldB.name,
          FieldB.innerShape, FieldB.fdtype, hvo2, hvs,
          getD_map_lt (se0 :: serest) Val.vdc 0 default default (by simp)]
        rw [show (se0 :: serest).getD 0 default = se0 from rfl]
        rw [stackFields.eq_def]
        dsimp only
        have hs0ne : isValueMissing (Val.vdc se0) = false := by
          rw [hvs,
            getD_map_lt (se0 :: serest) Val.vdc 0 default default (by simp),
            show (se0 :: serest).getD 0 default = se0 from rfl] at hs0m
          exact hs0m
        rw [if_neg (by rw [hs0ne]; simp)]
        have hextract : extractDcs nm ((List.range n).map
            (fun j => Dc.mk ty (fsAll.map (replAt (j + 1))) na)) =
            .ok ((List.range n).map
              (fun j => (se0 :: serest).getD (j + 1) default)) := by
          refine extractDcs_map nm (List.range n) _ _ ?_
          intro j hj
          have hjn : j < n := List.mem_range.mp hj
          have hp := hpoint (j + 1) (by omega) j rfl
          rw [show (Dc.mk ty (fsAll.map (replAt (j + 1))) na).fields =
            fsAll.map (replAt (j + 1)) from rfl]
          rw [show (FieldB.mk nm sh (FDtype.dcls tn)
            (Val.vdc sub)).name = nm from rfl] at hp
          rw [hp, hvs, getD_map_lt (se0 :: serest) Val.vdc (j + 1) default
            default (by simp; omega)]
        have hrest : (List.range n).map
            (fun j => (se0 :: serest).getD (j + 1) default) = serest := by
          have hc := cons_getD_eq (se0 :: serest) default n
            (by simp [hsublen])
          rw [show (se0 :: serest).getD 0 default = se0 from rfl] at hc
          simpa using hc
        simp only [hextract, hrest, hstk, hrec, List.map_cons]
        rfl

theorem range_getD (m k d : Nat) (hk : k < m) :
    (List.range m).getD k d = k := by
  rw [List.getD_eq_getElem _ _ (by simpa using hk)]
  simp

theorem range_map_succ_split {α : Type} (m : Nat) (g : Nat → α) :
    (List.range (m + 1)).map g = g 0 :: (List.range m).map (fun j => g (j + 1)) := by
  rw [List.range_succ_eq_map, List.map_cons, List.map_map]
  rfl

theorem dcIter_elems (ty : String) (fs : List FieldB) (na : List (String × Int))
    (n : Nat) (s : List Nat) (x : Backend)
    (hnd : (fs.map FieldB.name).Nodup)
    (hOK : ∀ f ∈ fs, FieldSliceOK x n s f)
    (hact : fs.filter (fun f => !(isValueMissing f.value)) ≠ [])
    (hpost : dcPostInit (.mk ty fs na) = .ok (some ((n + 1) :: s), x)) :
    dcIter (.mk ty fs na) = .ok ((List.range (n + 1)).map
      (fun k => Dc.mk ty (fs.map (replAt k)) na)) := by
  rw [dcIter.eq_def]
  dsimp only
  rw [hpost]
  dsimp only
  rw [iterFields_of_sliceOK x n s fs hOK]
  dsimp only
  have hnames : ((fs.filter (fun f => !(isValueMissing f.value))).map
      (fun f => (f.name, iterValsOf f.value))).map Prod.fst =
      (fs.filter (fun f => !(isValueMissing f.value))).map FieldB.name := by
    rw [List.map_map]
    rfl
  have hvals : ((fs.filter (fun f => !(isValueMissing f.value))).map
      (fun f => (f.name, iterValsOf f.value))).map Prod.snd =
      (fs.filter (fun f => !(isValueMissing f.value))).map
        (fun f => iterValsOf f.value) := by
    rw [List.map_map]
    rfl
  rw [hnames, hvals]
  have hlens : ∀ l ∈ (fs.filter (fun f => !(isValueMissing f.value))).map
      (fun f => iterValsOf f.value), l.length = n + 1 := by
    intro l hl
    rw [List.mem_map] at hl
    obtain ⟨f, hfmem, rfl⟩ := hl
    have hfs := List.mem_of_mem_filter hfmem
    have hactf := List.of_mem_filter hfmem
    rcases hOK f hfs with hmiss | ⟨vs, _, hvo, hvlen, _, _⟩
    · rw [hmiss] at hactf
      simp at hactf
    · rw [hvo]
      exact hvlen
  obtain ⟨a0, atl, hasplit⟩ := List.exists_cons_of_ne_nil hact
  have hzip : zipStar ((fs.filter (fun f => !(isValueMissing f.value))).map
      (fun f => iterValsOf f.value)) = (List.range (n + 1)).map
      (fun k => ((fs.filter (fun f => !(isValueMissing f.value))).map
        (fun f => iterValsOf f.value)).map (fun l => l.getD k default)) := by
    rw [hasplit, List.map_cons,
      zipStar_const _ _ (n + 1)
        (by intro l hl; apply hlens; rw [hasplit, List.map_cons]; exact hl)]
  rw [hzip, List.map_map]
  have helem : ∀ k ∈ List.range (n + 1),
      ((fun vals => dcReplace (Dc.mk ty fs na)
        ((((fs.filter (fun f => !(isValueMissing f.value))).map
          FieldB.name)).zip vals)) ∘
        (fun k => ((fs.filter (fun f => !(isValueMissing f.value))).map
          (fun f => iterValsOf f.value)).map (fun l => l.getD k default))) k =
      Dc.mk ty (fs.map (replAt k)) na := by
    intro k _
    rw [Function.comp_apply, List.map_map]
    have hzipmap : (((fs.filter (fun f => !(isValueMissing f.value))).map
        FieldB.name).zip ((fs.filter (fun f => !(isValueMissing f.value))).map
          ((fun l => l.getD k default) ∘ (fun f => iterValsOf f.value)))) =
        sliceAssigns fs k := by
      rw [List.zip_map']
      rfl
    rw [hzipmap]
    exact dcReplace_slice ty fs na k hnd
  rw [List.map_congr_left helem]
  refine elemsValidate_ok _ ?_
  intro e he
  rw [List.mem_map] at he
  obtain ⟨k, hk, rfl⟩ := he
  have hactex : ∃ f ∈ fs, isValueMissing f.value = false := by
    have ha0 : a0 ∈ fs.filter (fun f => !(isValueMissing f.value)) := by
      rw [hasplit]
      exact List.mem_cons_self _ _
    refine ⟨a0, List.mem_of_mem_filter ha0, ?_⟩
    have := List.of_mem_filter ha0
    simpa using this
  exact ⟨(some s, x),
    elem_postInit ty fs na x n s k (List.mem_range.mp hk) hOK hactex⟩

theorem dcStack_elems (ty : String) (fs : List FieldB)
    (na : List (String × Int)) (n : Nat) (s : List Nat) (x : Backend)
    (hnd : (fs.map FieldB.name).Nodup)
    (hOK : ∀ f ∈ fs, FieldSliceOK x n s f)
    (hact : fs.filter (fun f => !(isValueMissing f.value)) ≠ [])
    (hpost : dcPostInit (.mk ty fs na) = .ok (some ((n + 1) :: s), x)) :
    dcStack ((List.range (n + 1)).map
      (fun k => Dc.mk ty (fs.map (replAt k)) na)) = .ok (.mk ty fs na) := by
  have hactex : ∃ f ∈ fs, isValueMissing f.value = false := by
    obtain ⟨a0, atl, hasplit⟩ := List.exists_cons_of_ne_nil hact
    have ha0 : a0 ∈ fs.filter (fun f => !(isValueMissing f.value)) := by
      rw [hasplit]
      exact List.mem_cons_self _ _
    refine ⟨a0, List.mem_of_mem_filter ha0, ?_⟩
    have := List.of_mem_filter ha0
    simpa using this
  rw [range_map_succ_split n (fun k => Dc.mk ty (fs.map (replAt k)) na)]
  rw [dcStack_cons, dcStackAux.eq_def]
  dsimp only
  rw [if_neg (by rw [stack_guard_probe_false]; simp)]
  rw [elem_postInit ty fs na x n s 0 (by omega) hOK hactex]
  dsimp only
  have hsw := stackFields_walk ty na fs hnd x n s fs (fun f hf => hf) hOK
  rw [hsw]
  dsimp only
  rw [dcReplace_back ty fs na hnd, hpost]

theorem valIter_cell (b : Backend) (xs : List Arr) :
    valIter (.varr b (.cell xs)) = .ok (xs.map (.varr b)) := by
  rw [valIter.eq_def]

theorem valIter_vdc_ok (sub : Dc) (ds : List Dc) (h : dcIter sub = .ok ds) :
    valIter (.vdc sub) = .ok (ds.map .vdc) := by
  rw [valIter.eq_def]
  dsimp only
  rw [h]

theorem filter_active_ne_nil_of_postInit (ty : String) (fs : List FieldB)
    (na : List (String × Int)) (s : List Nat) (x : Backend)
    (h : dcPostInit (.mk ty fs na) = .ok (some s, x)) :
    fs.filter (fun f => !(isValueMissing f.value)) ≠ [] := by
  obtain ⟨infos, hinit, hne⟩ := dcPostInit_ok_some_active ty fs na s x h
  have hlen := forall2_active_filter fs infos (fieldsInit_forall2 fs infos hinit)
  intro h0
  rw [h0] at hlen
  simp at hlen
  exact hne hlen

theorem exists_active_of_postInit (ty : String) (fs : List FieldB)
    (na : List (String × Int)) (s : List Nat) (x : Backend)
    (h : dcPostInit (.mk ty fs na) = .ok (some s, x)) :
    ∃ f ∈ fs, isValueMissing f.value = false := by
  have ha := hasActive_of_postInit_some ty fs na s x h
  rw [hasActive] at ha
  exact (anyActive_iff fs).mp ha

theorem sliceOK_of_postInit : ∀ (N : Nat) (d : Dc), sizeOf d ≤ N →
    ∀ (n : Nat) (s : List Nat) (x : Backend), wfDc d = true →
    dcPostInit d = .ok (some ((n + 1) :: s), x) →
    ∀ f ∈ d.fields, FieldSliceOK x n s f := by
  intro N
  induction N with
  | zero =>
    intro d hsz
    exfalso
    obtain ⟨ty, fs, na⟩ := d
    simp only [Dc.mk.sizeOf_spec] at hsz
    omega
  | succ N ihN =>
    intro d hsz n s x hwf hpost
    obtain ⟨ty, fs, na⟩ := d
    rw [Dc.fields]
    obtain ⟨hnd, hwfv⟩ := wfDc_parts ty fs na hwf
    obtain ⟨infos, hinit, hne⟩ := dcPostInit_ok_some_active ty fs na _ x hpost
    obtain ⟨infos2, hinit2, _, hval⟩ := dcPostInit_ok_facts ty fs na _ hpost
    rw [hinit] at hinit2
    cases hinit2
    intro f hf
    by_cases hmv : isValueMissing f.value = true
    · exact Or.inl hmv
    obtain ⟨oi, hfio, hoimem⟩ := fieldsInit_mem fs infos hinit f hf
    have hwfvf := hwfv f hf
    cases oi with
    | none => exact absurd (fieldInit_none_missing f hfio) hmv
    | some i =>
    have hired : i ∈ infos.reduceOption := List.reduceOption_mem_iff.mpr hoimem
    have hish := hval ((n + 1) :: s) x rfl i hired
    obtain ⟨nm, sh, dt, v⟩ := f
    rw [show (FieldB.mk nm sh dt v).value = v from rfl] at hmv hwfvf
    cases v with
    | vnone => exact absurd isValueMissing.eq_1 hmv
    | vobj => exact absurd isValueMissing.eq_2 hmv
    | varr b arr =>
      cases dt with
      | dcls tn =>
        exfalso
        rw [fieldInit.eq_def] at hfio
        dsimp only at hfio
        rw [if_neg hmv] at hfio
        cases hfio
      | prim =>
        obtain ⟨hieq, hshape⟩ := fieldInit_prim_inv nm sh b arr i hfio
        subst hieq
        obtain ⟨hh1, hh2⟩ := hish
        dsimp only at hh1 hh2
        subst hh2
        rw [hh1, List.cons_append] at hshape
        cases arr with
        | scal z => cases hshape
        | cell xs =>
          cases xs with
          | nil =>
            rw [Arr.shape] at hshape
            cases hshape
          | cons a0 arest =>
            rw [Arr.shape] at hshape
            injection hshape with hlen hsh0
            have hrect := wfVal_varr b _ hwfvf
            have hshapes := rect_cell_shapes a0 arest hrect
            refine Or.inr ⟨(a0 :: arest).map (.varr b), ?_, ?_, ?_, ?_, ?_⟩
            · exact valIter_cell b (a0 :: arest)
            · rw [show (FieldB.mk nm sh .prim
                  (.varr b (.cell (a0 :: arest)))).value =
                  Val.varr b (.cell (a0 :: arest)) from rfl,
                iterValsOf, valIter_cell]
            · rw [List.length_map]
              exact hlen.symm
            · intro k hk
              have hk' : k < (a0 :: arest).length := by omega
              show fieldInit (FieldB.mk nm sh .prim
                (((a0 :: arest).map (Val.varr b)).getD k default)) =
                .ok (some ⟨nm, b, s⟩)
              rw [getD_map_lt (a0 :: arest) (Val.varr b) k default default hk']
              have hakmem : (a0 :: arest).getD k default ∈ a0 :: arest := by
                rw [List.getD_eq_getElem _ _ hk']
                exact List.getElem_mem _
              have hhh : hostShapeOf sh ((a0 :: arest).getD k default).shape
                  = s := by
                rw [hshapes _ hakmem, ← hsh0, hostShapeOf_append]
              rw [fieldInit_prim_intro nm sh b _
                  (by rw [hhh, hshapes _ hakmem, ← hsh0]), hhh]
            · exact Or.inl ⟨a0 :: arest, rfl, rfl, rfl⟩
    | vdc sub =>
      cases dt with
      | prim =>
        exfalso
        rw [fieldInit.eq_def] at hfio
        dsimp only at hfio
        rw [if_neg hmv] at hfio
        cases hfio
      | dcls tn =>
        obtain ⟨hty, vs0, hsubpost, hieq, hhost⟩ :=
          fieldInit_dcls_inv nm sh tn sub i hfio
        obtain ⟨hh1, hh2⟩ := hish
        rw [hieq] at hh1
        dsimp only at hh1
        rw [hh2] at hsubpost
        rw [hh1, List.cons_append] at hhost
        have hvs0 : vs0 = (n + 1) :: (s ++ sh) := hhost.symm
        subst hvs0
        have h1 := List.sizeOf_lt_of_mem hf
        have hsub2 : sizeOf sub ≤ N := by
          simp only [FieldB.mk.sizeOf_spec, Val.vdc.sizeOf_spec] at h1
          simp only [Dc.mk.sizeOf_spec] at hsz
          omega
        have hsubwf : wfDc sub = true := wfVal_vdc sub hwfvf
        obtain ⟨sty, sfs, sna⟩ := sub
        have hIH := ihN (Dc.mk sty sfs sna) hsub2 n (s ++ sh) x hsubwf hsubpost
        rw [Dc.fields] at hIH
        obtain ⟨hsnd, _⟩ := wfDc_parts sty sfs sna hsubwf
        have hsact := filter_active_ne_nil_of_postInit sty sfs sna _ x hsubpost
        have hsactex := exists_active_of_postInit sty sfs sna _ x hsubpost
        have hIter := dcIter_elems sty sfs sna n (s ++ sh) x hsnd hIH hsact
          hsubpost
        have hStack := dcStack_elems sty sfs sna n (s ++ sh) x hsnd hIH hsact
          hsubpost
        refine Or.inr ⟨((List.range (n + 1)).map
          (fun k => Dc.mk sty (sfs.map (replAt k)) sna)).map .vdc,
          ?_, ?_, ?_, ?_, ?_⟩
        · exact valIter_vdc_ok _ _ hIter
        · rw [show (FieldB.mk nm sh (.dcls tn)
              (.vdc (Dc.mk sty sfs sna))).value =
              Val.vdc (Dc.mk sty sfs sna) from rfl,
            iterValsOf, valIter_vdc_ok _ _ hIter]
        · simp
        · intro k hk
          show fieldInit (FieldB.mk nm sh (.dcls tn)
            ((((List.range (n + 1)).map
              (fun k => Dc.mk sty (sfs.map (replAt k)) sna)).map
                Val.vdc).getD k default)) = .ok (some ⟨nm, x, s⟩)
          rw [getD_map_lt _ Val.vdc k default default (by simpa using hk)]
          rw [getD_map_lt (List.range (n + 1)) _ k default 0
            (by simpa using hk)]
          rw [range_getD (n + 1) k 0 hk]
          have hep := elem_postInit sty sfs sna x n (s ++ sh) k hk hIH hsactex
          have hea := hasActive_of_postInit_some sty _ sna (s ++ sh) x hep
          rw [fieldInit_dcls_intro nm sh tn _ (s ++ sh) x hea hty hep
            (by rw [hostShapeOf_append])]
          rw [hostShapeOf_append]
        · refine Or.inr ⟨tn, Dc.mk sty sfs sna,
            Dc.mk sty (sfs.map (replAt 0)) sna,
            (List.range n).map
              (fun j => Dc.mk sty (sfs.map (replAt (j + 1))) sna),
            rfl, rfl, ?_, ?_⟩
          · rw [range_map_succ_split n
              (fun k => Dc.mk sty (sfs.map (replAt k)) sna)]
          · rw [range_map_succ_split n
                (fun k => Dc.mk sty (sfs.map (replAt k)) sna),
              dcStack_cons] at hStack
            exact hStack

/-- C7: for every well-formed record whose batch shape has a nonzero leading
dimension `n + 1`, the round trip `stack(list(iter(record)))` rebuilds the
original record: `__iter__` succeeds and the free function `stack` applied to
its output returns the record itself.  (Corrected from the spec, which asks
this for every non-empty batch shape: a batch shape `(0, ...)` is non-empty
yet iterates to `[]`, and `stack([])` raises `IndexError` at `arrays[0]`.) -/
theorem iterate_stack_roundtrip (d : Dc) (n : Nat) (s : List Nat) (x : Backend)
    (hwf : wfDc d = true)
    (hpost : dcPostInit d = .ok (some ((n + 1) :: s), x)) :
    ∃ elems, dcIter d = .ok elems ∧ dcStack elems = .ok d := by
  obtain ⟨ty, fs, na⟩ := d
  have hOK := sliceOK_of_postInit (sizeOf (Dc.mk ty fs na)) _ (le_refl _)
    n s x hwf hpost
  rw [Dc.fields] at hOK
  obtain ⟨hnd, _⟩ := wfDc_parts ty fs na hwf
  have hact := filter_active_ne_nil_of_postInit ty fs na _ x hpost
  exact ⟨_, dcIter_elems ty fs na n s x hnd hOK hact hpost,
    dcStack_elems ty fs na n s x hnd hOK hact hpost⟩

/-- Counterexample to the literal C7: `exEmpty` has the non-empty batch shape
`(0,)`, iterating it yields the empty list, and `stack([])` fails with
`IndexError` instead of rebuilding the record. -/
theorem iterate_stack_roundtrip_counterexample :
    dcPostInit exEmpty = .ok (some [0], .np) ∧
    dcIter exEmpty = .ok [] ∧
    dcStack [] = .error .indexOutOfRange := by
  refine ⟨?_, ?_, rfl⟩
  · simp [exEmpty, dcPostInit, fieldsInit, fieldInit, isValueMissing,
      hostShapeOf, Arr.shape, List.reduceOption, groupby, insertGroup]
  · simp [exEmpty, dcIter, dcPostInit, fieldsInit, fieldInit, isValueMissing,
      hostShapeOf, Arr.shape, List.reduceOption, groupby, insertGroup,
      iterFields, valIter, zipStar, elemsValidate]

/-- Witness for C7 at `exPoint` (batch shape `(3,)`): iteration succeeds and
stacking the yielded elements returns `exPoint`. -/
theorem iterate_stack_roundtrip_witness :
    ∃ elems, dcIter exPoint = .ok elems ∧ dcStack elems = .ok exPoint :=
  iterate_stack_roundtrip exPoint 2 [] .np
    (by simp [exPoint, wfDc, wfFields, wfVal, Arr.rect, rectList, Arr.shape,
      FieldB.name])
    (by simp [exPoint, dcPostInit, fieldsInit, fieldInit, isValueMissing,
      hostShapeOf, Arr.shape, List.reduceOption, groupby, insertGroup])
